import Mathlib

/-!
Verification of the core logic of the gitstuff repository: the repository
tree builder and group-path lookup, group filtering, local path resolution,
multi-provider aggregation, and listing order.

Go strings are modelled as Lean String values; the relevant Go string
functions (strings.Split, strings.Join, strings.HasPrefix, strings.HasSuffix)
are modelled by structurally recursive functions over the underlying
character lists, with the same semantics for a single-character separator.
Go maps (map[string]*GroupNode) are modelled as association lists whose
lookup returns the first binding; insertion replaces an existing binding in
place, exactly as a Go map update does observably.
-/

namespace Gitstuff

/-- Model of Go strings.Split with a one-character separator, over char
lists: strings.Split("", sep) yields one empty segment, and n separators
yield n+1 segments. -/
def splitOnSep (c : Char) : List Char → List (List Char)
  | [] => [[]]
  | x :: xs =>
    match splitOnSep c xs with
    | [] => [[]]
    | seg :: segs => if x = c then [] :: seg :: segs else (x :: seg) :: segs

/-- Model of Go strings.Join with a one-character separator, over char
lists. -/
def joinSep (c : Char) : List (List Char) → List Char
  | [] => []
  | [s] => s
  | s :: rest => s ++ c :: joinSep c rest

/-- strings.Split(s, "/") as used throughout the source. -/
def goSplit (s : String) : List String :=
  (splitOnSep '/' s.data).map String.mk

/-- strings.Join(parts, "/") as used throughout the source. -/
def goJoin (parts : List String) : String :=
  String.mk (joinSep '/' (parts.map String.data))

/-- strings.HasPrefix(s, p). -/
def goStartsWith (s p : String) : Bool :=
  p.data.isPrefixOf s.data

/-- strings.HasSuffix(s, p). -/
def goEndsWith (s p : String) : Bool :=
  p.data.isSuffixOf s.data

/-- The scm.Repository record (internal/scm model, provider-tagged). -/
structure Repository where
  id : String
  name : String
  fullPath : String
  cloneURL : String
  sshCloneURL : String
  defaultBranch : String
  webURL : String
  provider : String
deriving DecidableEq

/-- The scm.Group record. -/
structure Group where
  id : String
  name : String
  fullPath : String
  provider : String
deriving DecidableEq

mutual
/-- scm.GroupNode: a group, its SubGroups map, and its direct repositories. -/
inductive GroupNode : Type where
  | mk : Group → GroupMap → List Repository → GroupNode
/-- A Go map[string]*GroupNode, modelled as an association list. -/
inductive GroupMap : Type where
  | nil : GroupMap
  | cons : String → GroupNode → GroupMap → GroupMap
end

def GroupNode.group : GroupNode → Group
  | .mk g _ _ => g

def GroupNode.subGroups : GroupNode → GroupMap
  | .mk _ m _ => m

def GroupNode.repositories : GroupNode → List Repository
  | .mk _ _ rs => rs

/-- Go map read m[k]: the first binding for k, if any. -/
def GroupMap.lookup : GroupMap → String → Option GroupNode
  | .nil, _ => none
  | .cons k n rest, key => if k = key then some n else rest.lookup key

/-- Go map write m[k] = v: replace the binding in place, or add one. -/
def GroupMap.update : GroupMap → String → GroupNode → GroupMap
  | .nil, key, v => .cons key v .nil
  | .cons k n rest, key, v =>
    if k = key then .cons key v rest else .cons k n (rest.update key v)

/-- The bindings of the map, for quantifying over all top-level nodes. -/
def GroupMap.entries : GroupMap → List (String × GroupNode)
  | .nil => []
  | .cons k n rest => (k, n) :: rest.entries

/-- scm.RepositoryTree: top-level groups plus root-level repositories. -/
structure RepositoryTree where
  groups : GroupMap
  repositories : List Repository

/-- The node created by the gitlab tree builder for a missing group
segment: ID and Name are the segment, FullPath is the join of all segments
walked so far including this one. -/
def newGroupNode (provider : String) (pref : List String) (part : String) : GroupNode :=
  .mk ⟨part, part, goJoin (pref ++ [part]), provider⟩ .nil []

/-- The inner walk of gitlab BuildRepositoryTree for one repository: walk
the chain of group segments, creating each missing node, and append the
repository to the final node. pref accumulates the segments already
walked, so that a new node at segment part gets FullPath
goJoin (pref ++ [part]), matching strings.Join(parts[:i+1], "/"). -/
def insertChain (provider : String) (repo : Repository) (pref : List String) :
    List String → GroupMap → GroupMap
  | [], m => m
  | part :: rest, m =>
    let n := (m.lookup part).getD (newGroupNode provider pref part)
    match rest with
    | [] => m.update part (.mk n.group n.subGroups (n.repositories ++ [repo]))
    | _ :: _ =>
      m.update part
        (.mk n.group (insertChain provider repo (pref ++ [part]) rest n.subGroups)
          n.repositories)

/-- One iteration of the loop body of gitlab BuildRepositoryTree
(internal/gitlab/client.go): a single-segment path goes to the root
repository list, otherwise the leading segments are walked as groups. -/
def buildInsert (t : RepositoryTree) (repo : Repository) : RepositoryTree :=
  let parts := goSplit repo.fullPath
  if parts.length = 1 then ⟨t.groups, t.repositories ++ [repo]⟩
  else ⟨insertChain "gitlab" repo [] parts.dropLast t.groups, t.repositories⟩

/-- gitlab BuildRepositoryTree as a pure function of the repository list it
iterates over (the list ListAllRepositories returned). -/
def buildRepositoryTree (repos : List Repository) : RepositoryTree :=
  repos.foldl buildInsert ⟨.nil, []⟩

/-- The loop of findGroupInTree (cmd list): currentNode tracks the node
found for the segments consumed so far; a missing segment returns nil. -/
def walkParts : GroupMap → Option GroupNode → List String → Option GroupNode
  | _, acc, [] => acc
  | m, _, part :: rest =>
    match m.lookup part with
    | some n => walkParts n.subGroups (some n) rest
    | none => none

/-- findGroupInTree (cmd list): split the group path on "/" and walk the
tree one segment at a time. -/
def findGroupInTree (t : RepositoryTree) (groupPath : String) : Option GroupNode :=
  walkParts t.groups none (goSplit groupPath)

/-- The node reached from a map by consuming a nonempty chain of segments
(none when any segment is missing, and for the empty chain). -/
def nodeAt : GroupMap → List String → Option GroupNode
  | _, [] => none
  | m, part :: rest =>
    match m.lookup part, rest with
    | none, _ => none
    | some n, [] => some n
    | some n, _ :: _ => nodeAt n.subGroups rest

/-- The SubGroups map reached after consuming a chain of segments. -/
def mapAt : GroupMap → List String → Option GroupMap
  | m, [] => some m
  | m, part :: rest =>
    match m.lookup part with
    | some n => mapAt n.subGroups rest
    | none => none

/-- Repositories stored at the node a chain of segments reaches. -/
def reposAtM (m : GroupMap) (c : List String) : List Repository :=
  match nodeAt m c with
  | some n => n.repositories
  | none => []

/-- Repositories stored at a chain of a tree. -/
def reposAtT (t : RepositoryTree) (c : List String) : List Repository :=
  reposAtM t.groups c

/-- The chain of group segments of a repository: none for a single-segment
path (root repository), otherwise all segments but the last. -/
def chainOf (r : Repository) : Option (List String) :=
  let parts := goSplit r.fullPath
  if parts.length = 1 then none else some parts.dropLast

mutual
/-- Number of group nodes of a node-rooted subtree whose direct repository
list contains x (the node itself included). -/
def nodeOccs (x : Repository) : GroupNode → Nat
  | .mk _ subs reps => (if x ∈ reps then 1 else 0) + mapOccs x subs
/-- Number of group nodes under all nodes of a map whose direct repository
list contains x. -/
def mapOccs (x : Repository) : GroupMap → Nat
  | .nil => 0
  | .cons _ n rest => nodeOccs x n + mapOccs x rest
end

/-- Number of group nodes of a tree whose direct repository list contains
x: "x appears in exactly one GroupNode" is treeOccs x t = 1. -/
def treeOccs (x : Repository) (t : RepositoryTree) : Nat :=
  mapOccs x t.groups

/-- One iteration of the loop of buildTreeFromRepos
(internal/github/client.go): single-segment paths go to the root list;
otherwise the first segment is the organization and the repository is
appended directly to that top-level node. goSplit never returns an empty
list, so the first branch is unreachable. -/
def ghInsert (t : RepositoryTree) (repo : Repository) : RepositoryTree :=
  match goSplit repo.fullPath with
  | [] => t
  | [_] => ⟨t.groups, t.repositories ++ [repo]⟩
  | org :: _ :: _ =>
    let n := (t.groups.lookup org).getD (.mk ⟨org, org, org, "github"⟩ .nil [])
    ⟨t.groups.update org (.mk n.group n.subGroups (n.repositories ++ [repo])),
      t.repositories⟩

/-- github buildTreeFromRepos as a pure function of the repository list. -/
def buildTreeFromRepos (repos : List Repository) : RepositoryTree :=
  repos.foldl ghInsert ⟨.nil, []⟩

/-- The organization segment of a repository path, when it has at least
two segments. -/
def orgOf (r : Repository) : Option String :=
  match goSplit r.fullPath with
  | org :: _ :: _ => some org
  | _ => none

/-- Repositories stored at the top-level node of an organization. -/
def orgRepos (t : RepositoryTree) (org : String) : List Repository :=
  match t.groups.lookup org with
  | some n => n.repositories
  | none => []

/-- Model of Go filepath.Join: empty elements are skipped and the rest are
joined with "/" (the additional lexical cleaning filepath.Join performs is
irrelevant here: the resolver only compares and returns the joined
strings). -/
def filepathJoin (elems : List String) : String :=
  goJoin (elems.filter (fun s => !(s == "")))

/-- ResolveRepositoryPath (internal/paths/resolver.go). The filesystem is
modelled by fsExists: os.Stat(p) succeeding is fsExists p = true.
cfg.Local.BaseDir is the baseDir argument. The provider-based path is
checked first, then the legacy path; if neither exists the provider-based
path is returned for a fresh clone. -/
def resolveRepositoryPath (fsExists : String → Bool) (baseDir : String)
    (repo : Repository) : String :=
  let providerPath := filepathJoin [baseDir, repo.provider, repo.fullPath]
  if fsExists providerPath then providerPath
  else
    let legacyPath := filepathJoin [baseDir, repo.fullPath]
    if fsExists legacyPath then legacyPath
    else providerPath

/-- GetClonePath (internal/paths/resolver.go): always the provider-based
path; the function does not consult the filesystem at all. -/
def getClonePath (baseDir : String) (repo : Repository) : String :=
  filepathJoin [baseDir, repo.provider, repo.fullPath]

/-- The match test of findRepositoryByPath (cmd clone): exact full-path
equality or the query as a suffix of the full path. -/
def isMatch (q : String) (r : Repository) : Bool :=
  r.fullPath == q || goEndsWith r.fullPath q

/-- The search loop of findRepositoryByPath: the first repository of the
list that matches. -/
def findMatch (q : String) : List Repository → Option Repository
  | [] => none
  | r :: rest => if isMatch q r then some r else findMatch q rest

/-- A provider client as the aggregation layer observes it: its
GetProviderType() string and the outcome of its ListAllRepositories()
call (error value or repository list). -/
structure MClient where
  providerType : String
  listResult : Except String (List Repository)

/-- findRepositoryByPath (cmd clone): list the client's repositories and
return the first match, a not-found error when none matches, or the
listing error itself. -/
def findRepositoryByPath (client : MClient) (q : String) :
    Except String Repository :=
  match client.listResult with
  | .error e => .error e
  | .ok repos =>
    match findMatch q repos with
    | some r => .ok r
    | none => .error "repository not found"

/-- The client loop of cloneSingleRepository: clients are searched in list
order and the first successful find wins; a client whose lookup errors
(listing failure or no match) is skipped. -/
def searchClients (q : String) : List MClient → Option Repository
  | [] => none
  | c :: rest =>
    match findRepositoryByPath c q with
    | .ok r => some r
    | .error _ => searchClients q rest

/-- The lookup outcome of cloneSingleRepository (cmd clone): the found
repository, or the explicit not-found error when no provider yields a
match. Only the lookup decision is modelled; the subsequent git actions
are boundary effects. -/
def cloneSingleRepositoryFind (clients : List MClient) (q : String) :
    Except String Repository :=
  match searchClients q clients with
  | some r => .ok r
  | none => .error ("repository " ++ q ++ " not found in any configured provider")

/-- All repositories of the clients whose listing succeeded, in client
order. -/
def availableRepos (clients : List MClient) : List Repository :=
  clients.flatMap fun c =>
    match c.listResult with
    | .ok rs => rs
    | .error _ => []

/-- scm.MultiClientManager.ListAllRepositories: iterate the clients in
order, and return the first listing error immediately, dropping every
repository collected so far; otherwise concatenate all lists. -/
def managerListAll : List MClient → Except String (List Repository)
  | [] => .ok []
  | c :: rest =>
    match c.listResult with
    | .error e => .error e
    | .ok rs =>
      match managerListAll rest with
      | .error e => .error e
      | .ok more => .ok (rs ++ more)

/-- The collection loop of cloneAllRepositories (cmd clone): a failing
provider is reported as a (provider type, error) pair and skipped; the
repositories of the remaining providers are concatenated in client
order. -/
def collectAllRepos : List MClient → List Repository × List (String × String)
  | [] => ([], [])
  | c :: rest =>
    match c.listResult with
    | .error e =>
      let p := collectAllRepos rest
      (p.1, (c.providerType, e) :: p.2)
    | .ok rs =>
      let p := collectAllRepos rest
      (rs ++ p.1, p.2)

/-- Ascending lexicographic order on FullPath, as Go compares strings
(bytewise, which agrees with character-list lexicographic order). -/
def repoLE (a b : Repository) : Prop :=
  a.fullPath.data ≤ b.fullPath.data

/-- The sort.Slice call ending every listing, with less comparing
FullPath: its observable outcome — a permutation of the input that is
nondecreasing under repoLE — is realized by insertion sort. -/
def sortByFullPath (l : List Repository) : List Repository :=
  List.insertionSort (fun a b => a.fullPath.data ≤ b.fullPath.data) l

/-- The client-side filter of listRepositoriesInSpecificGroup
(internal/gitlab/client.go): keep a project when its path is under the
group (groupPath followed by "/") or is the group path itself. -/
def groupFilterKeep (groupPath : String) (r : Repository) : Bool :=
  goStartsWith r.fullPath (groupPath ++ "/") || r.fullPath == groupPath

/-- gitlab listRepositoriesInSpecificGroup as a function of the pages the
group-projects API returned (each page already normalized to scm
records): concatenate the pages, filter, and sort by FullPath. -/
def listRepositoriesInSpecificGroup (groupPath : String)
    (pages : List (List Repository)) : List Repository :=
  sortByFullPath ((pages.flatten).filter (groupFilterKeep groupPath))

/-- gitlab ListAllRepositories (the groupPath = "" path of
ListRepositoriesInGroup) as a function of the pages the projects API
returned: concatenate the pages and sort by FullPath. -/
def gitlabListAllRepositories (pages : List (List Repository)) : List Repository :=
  sortByFullPath pages.flatten

/-- gitlab ListRepositoriesInGroup: dispatches on the group path. -/
def gitlabListRepositoriesInGroup (groupPath : String)
    (pages : List (List Repository)) : List Repository :=
  if groupPath = "" then gitlabListAllRepositories pages
  else listRepositoriesInSpecificGroup groupPath pages

/-- A repository item as the GitHub API returns it, with the fields the
client reads. -/
structure GhApiRepo where
  ghId : Int
  ghName : String
  fullName : String
  cloneURL : String
  sshURL : String
  defaultBranch : String
  htmlURL : String
  isPrivate : Bool
  pullPerm : Bool
deriving DecidableEq

/-- Normalization of a GitHub item into the scm record
(internal/github/client.go). -/
def ghToRepo (g : GhApiRepo) : Repository :=
  ⟨toString g.ghId, g.ghName, g.fullName, g.cloneURL, g.sshURL,
    g.defaultBranch, g.htmlURL, "github"⟩

/-- The skip condition of github ListAllRepositories: items with an empty
full name, or private without pull permission, are dropped. -/
def ghKeep (g : GhApiRepo) : Bool :=
  !(g.fullName == "" || (g.isPrivate && !g.pullPerm))

/-- github ListAllRepositories as a function of the pages the API
returned: concatenate, drop inaccessible items, normalize, sort. -/
def githubListAllRepositories (pages : List (List GhApiRepo)) : List Repository :=
  sortByFullPath (((pages.flatten).filter ghKeep).map ghToRepo)

/-- github ListRepositoriesInGroup as a function of the pages the
by-organization API returned: concatenate, normalize, sort (the org name
only selects the remote endpoint). -/
def githubListRepositoriesInGroup (pages : List (List GhApiRepo)) : List Repository :=
  sortByFullPath ((pages.flatten).map ghToRepo)

/-! Path resolver (C3, C9). -/

/-- C3: for every base directory, provider tag and full path,
ResolveRepositoryPath returns the legacy path when only the legacy path
exists, and the provider path when only the provider path exists, when
both exist, and when neither exists. -/
theorem resolveRepositoryPath_cases (fs : String → Bool) (baseDir : String)
    (repo : Repository) :
    (fs (filepathJoin [baseDir, repo.fullPath]) = true →
      fs (filepathJoin [baseDir, repo.provider, repo.fullPath]) = false →
      resolveRepositoryPath fs baseDir repo = filepathJoin [baseDir, repo.fullPath]) ∧
    (fs (filepathJoin [baseDir, repo.provider, repo.fullPath]) = true →
      fs (filepathJoin [baseDir, repo.fullPath]) = false →
      resolveRepositoryPath fs baseDir repo
        = filepathJoin [baseDir, repo.provider, repo.fullPath]) ∧
    (fs (filepathJoin [baseDir, repo.provider, repo.fullPath]) = true →
      fs (filepathJoin [baseDir, repo.fullPath]) = true →
      resolveRepositoryPath fs baseDir repo
        = filepathJoin [baseDir, repo.provider, repo.fullPath]) ∧
    (fs (filepathJoin [baseDir, repo.provider, repo.fullPath]) = false →
      fs (filepathJoin [baseDir, repo.fullPath]) = false →
      resolveRepositoryPath fs baseDir repo
        = filepathJoin [baseDir, repo.provider, repo.fullPath]) := by
  refine ⟨fun h1 h2 => ?_, fun h1 h2 => ?_, fun h1 h2 => ?_, fun h1 h2 => ?_⟩ <;>
    simp [resolveRepositoryPath, h1, h2]

/-- A sample repository for concrete path-resolution scenarios. -/
def sampleRepo : Repository :=
  ⟨"1", "p", "a/p", "", "", "", "", "gitlab"⟩

/-- Concrete instances of the four path-resolution cases: legacy only,
provider only, both, neither. -/
theorem resolveRepositoryPath_cases_witness :
    resolveRepositoryPath (fun s => s == "b/a/p") "b" sampleRepo = "b/a/p" ∧
    resolveRepositoryPath (fun s => s == "b/gitlab/a/p") "b" sampleRepo
      = "b/gitlab/a/p" ∧
    resolveRepositoryPath (fun _ => true) "b" sampleRepo = "b/gitlab/a/p" ∧
    resolveRepositoryPath (fun _ => false) "b" sampleRepo = "b/gitlab/a/p" :=
  ⟨(resolveRepositoryPath_cases (fun s => s == "b/a/p") "b" sampleRepo).1
      (by decide) (by decide),
    (resolveRepositoryPath_cases (fun s => s == "b/gitlab/a/p") "b" sampleRepo).2.1
      (by decide) (by decide),
    (resolveRepositoryPath_cases (fun _ => true) "b" sampleRepo).2.2.1
      (by decide) (by decide),
    (resolveRepositoryPath_cases (fun _ => false) "b" sampleRepo).2.2.2
      (by decide) (by decide)⟩

/-- C9: GetClonePath returns the provider-namespaced path
baseDir/provider/fullPath for every base directory, provider tag and full
path, and — since it never consults the filesystem — its result is the
same under every filesystem state, even one where a legacy-layout
directory exists. -/
theorem getClonePath_unconditional (fs : String → Bool) (baseDir : String)
    (repo : Repository) :
    getClonePath baseDir repo
      = filepathJoin [baseDir, repo.provider, repo.fullPath] := rfl

/-! Group filtering (C5). -/

/-- A repository whose path starts with a sibling prefix of the filter. -/
def teamAbX : Repository :=
  ⟨"1", "x", "team-ab/x", "", "", "", "", "gitlab"⟩

/-- C5: a repository is kept by the group filter of
listRepositoriesInSpecificGroup iff its FullPath is the filter itself or
starts with the filter followed by "/"; in particular FullPath
team-ab/x is not kept under filter team-a. -/
theorem listRepositoriesInSpecificGroup_filter_law :
    (∀ (pages : List (List Repository)) (G : String) (r : Repository),
      r ∈ listRepositoriesInSpecificGroup G pages ↔
        r ∈ pages.flatten ∧
          (r.fullPath = G ∨ goStartsWith r.fullPath (G ++ "/") = true)) ∧
    teamAbX ∉ listRepositoriesInSpecificGroup "team-a" [[teamAbX]] := by
  constructor
  · intro pages G r
    unfold listRepositoriesInSpecificGroup sortByFullPath
    rw [(List.perm_insertionSort _ _).mem_iff, List.mem_filter]
    simp only [groupFilterKeep, Bool.or_eq_true, beq_iff_eq]
    tauto
  · decide

/-! Listing order (C10). -/

instance : IsTotal Repository (fun a b => a.fullPath.data ≤ b.fullPath.data) :=
  ⟨fun a b => le_total a.fullPath.data b.fullPath.data⟩

instance : IsTrans Repository (fun a b => a.fullPath.data ≤ b.fullPath.data) :=
  ⟨fun _ _ _ h h' => le_trans h h'⟩

/-- Every sortByFullPath result is nondecreasing in FullPath. -/
theorem sorted_sortByFullPath (l : List Repository) :
    List.Sorted repoLE (sortByFullPath l) :=
  List.sorted_insertionSort (fun a b => a.fullPath.data ≤ b.fullPath.data) l

/-- sortByFullPath only reorders its input. -/
theorem perm_sortByFullPath (l : List Repository) :
    (sortByFullPath l).Perm l := by
  unfold sortByFullPath
  exact List.perm_insertionSort _ l

/-- C10: all four listing operations (GitLab and GitHub, list-all and
list-in-group) return, for every sequence of fetched pages, a list that is
sorted in ascending lexicographic order of FullPath and is a permutation
of the collected (and, where applicable, filtered and normalized) page
contents. -/
theorem listings_sorted :
    (∀ pages, List.Sorted repoLE (gitlabListAllRepositories pages) ∧
      (gitlabListAllRepositories pages).Perm pages.flatten) ∧
    (∀ G pages, List.Sorted repoLE (gitlabListRepositoriesInGroup G pages)) ∧
    (∀ G pages, List.Sorted repoLE (listRepositoriesInSpecificGroup G pages) ∧
      (listRepositoriesInSpecificGroup G pages).Perm
        ((pages.flatten).filter (groupFilterKeep G))) ∧
    (∀ pages, List.Sorted repoLE (githubListAllRepositories pages) ∧
      (githubListAllRepositories pages).Perm
        (((pages.flatten).filter ghKeep).map ghToRepo)) ∧
    (∀ pages, List.Sorted repoLE (githubListRepositoriesInGroup pages) ∧
      (githubListRepositoriesInGroup pages).Perm
        ((pages.flatten).map ghToRepo)) := by
  refine ⟨fun pages => ⟨?_, ?_⟩, fun G pages => ?_, fun G pages => ⟨?_, ?_⟩,
    fun pages => ⟨?_, ?_⟩, fun pages => ⟨?_, ?_⟩⟩
  · exact sorted_sortByFullPath _
  · exact perm_sortByFullPath _
  · unfold gitlabListRepositoriesInGroup
    split
    · exact sorted_sortByFullPath _
    · exact sorted_sortByFullPath _
  · exact sorted_sortByFullPath _
  · exact perm_sortByFullPath _
  · exact sorted_sortByFullPath _
  · exact perm_sortByFullPath _
  · exact sorted_sortByFullPath _
  · exact perm_sortByFullPath _

/-! Single-repository lookup (C7). -/

/-- findMatch scans a concatenation left to right. -/
theorem findMatch_append (q : String) (l1 l2 : List Repository) :
    findMatch q (l1 ++ l2) =
      match findMatch q l1 with
      | some r => some r
      | none => findMatch q l2 := by
  induction l1 with
  | nil => simp [findMatch]
  | cons r rest ih =>
    by_cases h : isMatch q r = true
    · simp [findMatch, h]
    · simp [findMatch, h, ih]

/-- A findMatch result matches, and everything before it does not. -/
theorem findMatch_some (q : String) (l : List Repository) (r : Repository)
    (h : findMatch q l = some r) :
    isMatch q r = true ∧
      ∃ pre post, l = pre ++ r :: post ∧ ∀ x ∈ pre, isMatch q x = false := by
  induction l with
  | nil => simp [findMatch] at h
  | cons a rest ih =>
    by_cases ha : isMatch q a = true
    · simp only [findMatch, ha, if_pos, Option.some.injEq] at h
      subst h
      exact ⟨ha, [], rest, rfl, by simp⟩
    · simp only [findMatch, ha, if_neg, Bool.false_eq_true, if_false] at h
      obtain ⟨hm, pre, post, hl, hpre⟩ := ih h
      refine ⟨hm, a :: pre, post, by simp [hl], ?_⟩
      intro x hx
      rcases List.mem_cons.mp hx with hx | hx
      · subst hx; exact Bool.eq_false_iff.mpr ha
      · exact hpre x hx

/-- findMatch fails exactly when no element matches. -/
theorem findMatch_eq_none_iff (q : String) (l : List Repository) :
    findMatch q l = none ↔ ∀ x ∈ l, isMatch q x = false := by
  induction l with
  | nil => simp [findMatch]
  | cons a rest ih =>
    by_cases ha : isMatch q a = true
    · simp [findMatch, ha]
    · have ha' : isMatch q a = false := by
        cases hA : isMatch q a
        · rfl
        · exact absurd hA ha
      have hstep : findMatch q (a :: rest) = findMatch q rest := by
        simp [findMatch, ha]
      rw [hstep, ih]
      constructor
      · intro h x hx
        rcases List.mem_cons.mp hx with rfl | hx
        · exact ha'
        · exact h x hx
      · intro h x hx
        exact h x (List.mem_cons_of_mem a hx)

/-- The client loop searches the successful listings in client order. -/
theorem searchClients_eq_findMatch (q : String) (clients : List MClient) :
    searchClients q clients = findMatch q (availableRepos clients) := by
  induction clients with
  | nil => simp [searchClients, availableRepos, findMatch]
  | cons c rest ih =>
    cases hc : c.listResult with
    | error e =>
      simp [searchClients, findRepositoryByPath, hc, availableRepos,
        List.flatMap_cons, ih]
    | ok repos =>
      simp only [availableRepos, List.flatMap_cons, hc] at ih ⊢
      rw [findMatch_append]
      cases hf : findMatch q repos with
      | some r => simp [searchClients, findRepositoryByPath, hc, hf]
      | none => simp [searchClients, findRepositoryByPath, hc, hf, ih]

/-- C7: the single-repository lookup returns the first repository, in
client order and within a client in listing order, whose FullPath equals
the query or ends with it; cloneSingleRepository reports its not-found
error exactly when no repository of any successful listing matches. -/
theorem findRepositoryByPath_first_match (clients : List MClient) (q : String) :
    searchClients q clients = findMatch q (availableRepos clients) ∧
    (∀ r, searchClients q clients = some r →
      isMatch q r = true ∧
        ∃ pre post, availableRepos clients = pre ++ r :: post ∧
          ∀ x ∈ pre, isMatch q x = false) ∧
    ((∃ e, cloneSingleRepositoryFind clients q = .error e) ↔
      ∀ x ∈ availableRepos clients, isMatch q x = false) := by
  refine ⟨searchClients_eq_findMatch q clients, ?_, ?_⟩
  · intro r hr
    rw [searchClients_eq_findMatch q clients] at hr
    exact findMatch_some q _ r hr
  · unfold cloneSingleRepositoryFind
    rw [searchClients_eq_findMatch q clients]
    cases hf : findMatch q (availableRepos clients) with
    | some r =>
      simp only [iff_iff_implies_and_implies]
      constructor
      · rintro ⟨e, he⟩; cases he
      · intro hall
        have := (findMatch_eq_none_iff q (availableRepos clients)).mpr hall
        rw [hf] at this; cases this
    | none =>
      simp only []
      constructor
      · intro _
        exact (findMatch_eq_none_iff q (availableRepos clients)).mp hf
      · intro _
        exact ⟨_, rfl⟩

/-- A repository matched by typing just its trailing segment. -/
def rGM : Repository :=
  ⟨"2", "myproject", "group/myproject", "", "", "", "", "gitlab"⟩

/-- Concrete first-match lookup: query myproject suffix-matches the full
path group/myproject in the only configured client. -/
theorem findRepositoryByPath_first_match_witness :
    isMatch "myproject" rGM = true ∧
      ∃ pre post, availableRepos [⟨"gitlab", .ok [rGM]⟩] = pre ++ rGM :: post ∧
        ∀ x ∈ pre, isMatch "myproject" x = false :=
  (findRepositoryByPath_first_match [⟨"gitlab", .ok [rGM]⟩] "myproject").2.1 rGM
    (by decide)

/-! Multi-provider aggregation (C1). -/

/-- Three repositories listed by a succeeding provider client. -/
def repoA1 : Repository := ⟨"a1", "r1", "ga/r1", "", "", "", "", "gitlab"⟩

def repoA2 : Repository := ⟨"a2", "r2", "ga/r2", "", "", "", "", "gitlab"⟩

def repoA3 : Repository := ⟨"a3", "r3", "ga/r3", "", "", "", "", "gitlab"⟩

/-- The two clients of the aggregation scenario: client A succeeds with 3
repositories, client B fails. -/
def c1Clients : List MClient :=
  [⟨"gitlab", .ok [repoA1, repoA2, repoA3]⟩, ⟨"github", .error "boom"⟩]

/-- MultiClientManager.ListAllRepositories violates the aggregation claim:
with client A succeeding with 3 repositories and client B failing, it
returns only the error — A's repositories are not returned at all. -/
theorem managerListAll_aborts_counterexample :
    managerListAll c1Clients = .error "boom" ∧
    ∀ rs, managerListAll c1Clients ≠ .ok rs := by
  have he : managerListAll c1Clients = .error "boom" := rfl
  refine ⟨he, fun rs h => ?_⟩
  rw [he] at h
  exact Except.noConfusion h

/-- C1 (amended): the clone command's aggregation loop returns the
concatenation of the repositories of every client whose listing
succeeded, in client order, and reports each failing client as a
non-fatal (provider type, error) pair; in the two-client scenario it
yields A's 3 repositories plus one reported error naming B. The
MultiClientManager aggregator instead aborts at the first failing
client. -/
theorem cloneAllRepositories_isolates_errors (clients : List MClient) :
    (collectAllRepos clients).1 = availableRepos clients ∧
    (collectAllRepos clients).2 = clients.filterMap (fun c =>
      match c.listResult with
      | .error e => some (c.providerType, e)
      | .ok _ => none) ∧
    (∀ (tA tB : String) (r1 r2 r3 : Repository) (e : String),
      collectAllRepos [⟨tA, .ok [r1, r2, r3]⟩, ⟨tB, .error e⟩]
        = ([r1, r2, r3], [(tB, e)])) := by
  refine ⟨?_, ?_, fun tA tB r1 r2 r3 e => rfl⟩
  · induction clients with
    | nil => simp [collectAllRepos, availableRepos]
    | cons c rest ih =>
      cases hc : c.listResult with
      | error e =>
        simp [collectAllRepos, availableRepos, List.flatMap_cons, hc] at ih ⊢
        exact ih
      | ok rs =>
        simp [collectAllRepos, availableRepos, List.flatMap_cons, hc] at ih ⊢
        exact ih
  · induction clients with
    | nil => simp [collectAllRepos]
    | cons c rest ih =>
      cases hc : c.listResult with
      | error e => simp [collectAllRepos, List.filterMap_cons, hc, ih]
      | ok rs => simp [collectAllRepos, List.filterMap_cons, hc, ih]

/-! Facts about the split/join model. -/

theorem splitOnSep_cons (c x : Char) (xs : List Char) :
    splitOnSep c (x :: xs) =
      match splitOnSep c xs with
      | [] => [[]]
      | seg :: segs => if x = c then [] :: seg :: segs else (x :: seg) :: segs := rfl

theorem splitOnSep_cons_eq (c x : Char) (xs s0 : List Char)
    (segs : List (List Char)) (hxs : splitOnSep c xs = s0 :: segs) :
    splitOnSep c (x :: xs) =
      if x = c then [] :: s0 :: segs else (x :: s0) :: segs := by
  rw [splitOnSep_cons, hxs]

theorem splitOnSep_ne_nil (c : Char) (l : List Char) : splitOnSep c l ≠ [] := by
  cases l with
  | nil => simp [splitOnSep]
  | cons x xs =>
    cases hxs : splitOnSep c xs with
    | nil =>
      rw [splitOnSep_cons, hxs]
      simp
    | cons s0 segs =>
      rw [splitOnSep_cons_eq c x xs s0 segs hxs]
      split <;> simp

theorem goSplit_ne_nil (s : String) : goSplit s ≠ [] := by
  unfold goSplit
  intro h
  exact splitOnSep_ne_nil '/' s.data (List.map_eq_nil_iff.mp h)

theorem length_splitOnSep_eq_one_iff (c : Char) (l : List Char) :
    (splitOnSep c l).length = 1 ↔ c ∉ l := by
  induction l with
  | nil => simp [splitOnSep]
  | cons x xs ih =>
    cases h : splitOnSep c xs with
    | nil => exact absurd h (splitOnSep_ne_nil c xs)
    | cons seg segs =>
      rw [h] at ih
      rw [splitOnSep_cons_eq c x xs seg segs h]
      by_cases hx : x = c
      · subst hx
        simp [List.mem_cons]
      · rw [if_neg hx]
        simp only [List.length_cons] at ih ⊢
        simp only [List.mem_cons]
        constructor
        · intro hlen hmem
          rcases hmem with hmem | hmem
          · exact hx hmem.symm
          · exact absurd hmem (ih.mp hlen)
        · intro hmem
          exact ih.mpr (fun hc => hmem (Or.inr hc))

theorem mem_splitOnSep_not_mem (c : Char) (l : List Char) :
    ∀ seg ∈ splitOnSep c l, c ∉ seg := by
  induction l with
  | nil =>
    intro seg hseg
    have : seg = [] := by simpa [splitOnSep] using hseg
    simp [this]
  | cons x xs ih =>
    intro seg hseg
    cases h : splitOnSep c xs with
    | nil => exact absurd h (splitOnSep_ne_nil c xs)
    | cons s0 segs =>
      rw [splitOnSep_cons_eq c x xs s0 segs h] at hseg
      rw [h] at ih
      by_cases hx : x = c
      · rw [if_pos hx] at hseg
        rcases List.mem_cons.mp hseg with rfl | hseg
        · simp
        · exact ih seg hseg
      · rw [if_neg hx] at hseg
        rcases List.mem_cons.mp hseg with rfl | hseg
        · intro hc
          rcases List.mem_cons.mp hc with rfl | hc
          · exact hx rfl
          · exact ih s0 (List.mem_cons_self s0 segs) hc
        · exact ih seg (List.mem_cons_of_mem s0 hseg)

theorem splitOnSep_of_not_mem (c : Char) (l : List Char) (h : c ∉ l) :
    splitOnSep c l = [l] := by
  induction l with
  | nil => simp [splitOnSep]
  | cons x xs ih =>
    have hx : x ≠ c := fun hxc => h (by simp [hxc])
    have hxs : c ∉ xs := fun hc => h (List.mem_cons_of_mem x hc)
    rw [splitOnSep_cons_eq c x xs xs [] (ih hxs), if_neg hx]

theorem splitOnSep_append_sep (c : Char) (s t : List Char) (hs : c ∉ s) :
    splitOnSep c (s ++ c :: t) = s :: splitOnSep c t := by
  induction s with
  | nil =>
    simp only [List.nil_append]
    cases h : splitOnSep c t with
    | nil => exact absurd h (splitOnSep_ne_nil c t)
    | cons seg segs => rw [splitOnSep_cons_eq c c t seg segs h, if_pos rfl]
  | cons a as ih =>
    have ha : a ≠ c := fun hac => hs (by simp [hac])
    have has : c ∉ as := fun hc => hs (List.mem_cons_of_mem a hc)
    have hmid := ih has
    simp only [List.cons_append]
    cases hrest : splitOnSep c t with
    | nil => exact absurd hrest (splitOnSep_ne_nil c t)
    | cons seg segs =>
      rw [hrest] at hmid
      rw [splitOnSep_cons_eq c a (as ++ c :: t) as (seg :: segs) hmid, if_neg ha]

theorem splitOnSep_joinSep (c : Char) :
    ∀ ls, ls ≠ [] → (∀ s ∈ ls, c ∉ s) → splitOnSep c (joinSep c ls) = ls
  | [], h, _ => absurd rfl h
  | [s], _, h => by
    unfold joinSep
    exact splitOnSep_of_not_mem c s (h s (by simp))
  | s :: s' :: rest, _, h => by
    have hstep : joinSep c (s :: s' :: rest) = s ++ c :: joinSep c (s' :: rest) := rfl
    rw [hstep, splitOnSep_append_sep c s _ (h s (by simp)),
      splitOnSep_joinSep c (s' :: rest) (by simp)
        (fun x hx => h x (List.mem_cons_of_mem s hx))]

theorem data_goJoin (parts : List String) :
    (goJoin parts).data = joinSep '/' (parts.map String.data) := rfl

theorem goSplit_goJoin (parts : List String) (hp : parts ≠ [])
    (h : ∀ s ∈ parts, '/' ∉ s.data) : goSplit (goJoin parts) = parts := by
  unfold goSplit
  rw [data_goJoin,
    splitOnSep_joinSep '/' (parts.map String.data)
      (by simpa using hp)
      (by
        intro s hs
        obtain ⟨t, ht, rfl⟩ := List.mem_map.mp hs
        exact h t ht)]
  rw [List.map_map]
  have : (String.mk ∘ String.data) = id := by
    funext s
    rfl
  rw [this, List.map_id]

theorem mem_goSplit_no_slash (s : String) :
    ∀ seg ∈ goSplit s, '/' ∉ seg.data := by
  intro seg hseg
  obtain ⟨l, hl, rfl⟩ := List.mem_map.mp hseg
  exact mem_splitOnSep_not_mem '/' s.data l hl

theorem length_goSplit_eq_one_iff (s : String) :
    (goSplit s).length = 1 ↔ '/' ∉ s.data := by
  unfold goSplit
  rw [List.length_map]
  exact length_splitOnSep_eq_one_iff '/' s.data

/-! Facts about map lookup and update. -/

theorem GroupMap.lookup_update_self :
    ∀ (m : GroupMap) (k : String) (v : GroupNode),
      (m.update k v).lookup k = some v
  | .nil, k, v => by simp [GroupMap.update, GroupMap.lookup]
  | .cons k' n rest, k, v => by
    by_cases h : k' = k
    · simp [GroupMap.update, GroupMap.lookup, h]
    · simp only [GroupMap.update, GroupMap.lookup, if_neg h]
      exact GroupMap.lookup_update_self rest k v

theorem GroupMap.lookup_update_ne :
    ∀ (m : GroupMap) (k : String) (v : GroupNode) (k' : String), k' ≠ k →
      (m.update k v).lookup k' = m.lookup k'
  | .nil, k, v, k', h => by
    have hne : ¬k = k' := fun he => h he.symm
    simp [GroupMap.update, GroupMap.lookup, hne]
  | .cons k0 n rest, k, v, k', h => by
    by_cases h0 : k0 = k
    · subst h0
      have hne : ¬k0 = k' := fun he => h he.symm
      simp [GroupMap.update, GroupMap.lookup, hne]
    · by_cases h1 : k0 = k'
      · subst h1
        simp [GroupMap.update, GroupMap.lookup, h0]
      · simp only [GroupMap.update, GroupMap.lookup, if_neg h0, if_neg h1]
        exact GroupMap.lookup_update_ne rest k v k' h

theorem nodeAt_cons (m : GroupMap) (part : String) (rest : List String) :
    nodeAt m (part :: rest) =
      match m.lookup part, rest with
      | none, _ => none
      | some n, [] => some n
      | some n, _ :: _ => nodeAt n.subGroups rest := rfl

theorem nodeAt_single (m : GroupMap) (part : String) :
    nodeAt m [part] = m.lookup part := by
  rw [nodeAt_cons]
  cases m.lookup part <;> rfl

theorem nodeAt_cons_some (m : GroupMap) (part : String) (rest : List String)
    (n : GroupNode) (h : m.lookup part = some n) (hr : rest ≠ []) :
    nodeAt m (part :: rest) = nodeAt n.subGroups rest := by
  cases rest with
  | nil => exact absurd rfl hr
  | cons a b => rw [nodeAt_cons, h]

theorem nodeAt_cons_none (m : GroupMap) (part : String) (rest : List String)
    (h : m.lookup part = none) : nodeAt m (part :: rest) = none := by
  rw [nodeAt_cons, h]

theorem nodeAt_nil_map (c : List String) : nodeAt .nil c = none := by
  cases c with
  | nil => rfl
  | cons a b => rw [nodeAt_cons]; rfl

/-! Group path lookup (C8). -/

theorem walkParts_cons (m : GroupMap) (acc : Option GroupNode) (part : String)
    (rest : List String) :
    walkParts m acc (part :: rest) =
      match m.lookup part with
      | some n => walkParts n.subGroups (some n) rest
      | none => none := rfl

theorem mapAt_cons (m : GroupMap) (part : String) (rest : List String) :
    mapAt m (part :: rest) =
      match m.lookup part with
      | some n => mapAt n.subGroups rest
      | none => none := rfl

/-- The loop of findGroupInTree computes nodeAt on a nonempty segment
list: the accumulator never leaks as a partial-match result. -/
theorem walkParts_eq_nodeAt :
    ∀ (parts : List String), parts ≠ [] → ∀ (m : GroupMap) (acc : Option GroupNode),
      walkParts m acc parts = nodeAt m parts
  | [], h, _, _ => absurd rfl h
  | [part], _, m, acc => by
    rw [walkParts_cons, nodeAt_single]
    cases m.lookup part with
    | none => rfl
    | some n => rfl
  | part :: q :: rest, _, m, acc => by
    rw [walkParts_cons]
    cases h : m.lookup part with
    | none => rw [nodeAt_cons_none m part (q :: rest) h]
    | some n =>
      rw [nodeAt_cons_some m part (q :: rest) n h (by simp)]
      exact walkParts_eq_nodeAt (q :: rest) (by simp) n.subGroups (some n)

/-- If the walk dies at segment s (the segments before it lead nowhere, or
lead to a map with no binding for s), the whole walk returns none. -/
theorem walkParts_none_of_absent :
    ∀ (pre : List String) (m : GroupMap) (acc : Option GroupNode) (s : String)
      (post : List String),
      (mapAt m pre).bind (fun mm => mm.lookup s) = none →
      walkParts m acc (pre ++ s :: post) = none
  | [], m, acc, s, post, habs => by
    simp only [mapAt, Option.bind] at habs
    simp only [List.nil_append]
    rw [walkParts_cons, habs]
  | p :: pre', m, acc, s, post, habs => by
    simp only [List.cons_append]
    rw [walkParts_cons]
    cases h : m.lookup p with
    | none => rfl
    | some n =>
      rw [mapAt_cons, h] at habs
      exact walkParts_none_of_absent pre' n.subGroups (some n) s post habs

/-- C8: for every tree and slash-delimited group path, if any path
segment is absent at its step of the walk from the root, findGroupInTree
returns none — never a node for the longest matching prefix. -/
theorem findGroupInTree_requires_every_segment (t : RepositoryTree)
    (path : String) (pre : List String) (s : String) (post : List String)
    (hsplit : goSplit path = pre ++ s :: post)
    (habs : (mapAt t.groups pre).bind (fun mm => mm.lookup s) = none) :
    findGroupInTree t path = none := by
  unfold findGroupInTree
  rw [hsplit]
  exact walkParts_none_of_absent pre t.groups none s post habs

/-- A repository that makes group team-a exist in the built tree. -/
def repoTA : Repository := ⟨"3", "x", "team-a/x", "", "", "", "", "gitlab"⟩

/-- Concrete scenario: team-a exists yet looking up team-a/nonexistent
returns not-found, not the team-a node. -/
theorem findGroupInTree_requires_every_segment_witness :
    (findGroupInTree (buildRepositoryTree [repoTA]) "team-a").isSome = true ∧
    findGroupInTree (buildRepositoryTree [repoTA]) "team-a/nonexistent" = none :=
  ⟨by decide,
    findGroupInTree_requires_every_segment (buildRepositoryTree [repoTA])
      "team-a/nonexistent" ["team-a"] "nonexistent" [] (by decide) (by rfl)⟩

/-! GitHub flat tree builder (C6). -/

theorem GroupMap.lookup_mem :
    ∀ (m : GroupMap) (k : String) (n : GroupNode),
      m.lookup k = some n → (k, n) ∈ m.entries
  | .nil, k, n, h => by simp [GroupMap.lookup] at h
  | .cons k0 n0 rest, k, n, h => by
    by_cases h0 : k0 = k
    · subst h0
      simp [GroupMap.lookup] at h
      subst h
      simp [GroupMap.entries]
    · simp only [GroupMap.lookup, if_neg h0] at h
      simp only [GroupMap.entries, List.mem_cons]
      exact Or.inr (GroupMap.lookup_mem rest k n h)

theorem GroupMap.mem_entries_update :
    ∀ (m : GroupMap) (k : String) (v : GroupNode) (k' : String) (n' : GroupNode),
      (k', n') ∈ (m.update k v).entries →
      (k' = k ∧ n' = v) ∨ (k', n') ∈ m.entries
  | .nil, k, v, k', n', h => by
    simp [GroupMap.update, GroupMap.entries] at h
    exact Or.inl h
  | .cons k0 n0 rest, k, v, k', n', h => by
    by_cases h0 : k0 = k
    · subst h0
      simp only [GroupMap.update, if_pos rfl, GroupMap.entries,
        List.mem_cons] at h
      rcases h with h | h
      · exact Or.inl ⟨congrArg Prod.fst h, congrArg Prod.snd h⟩
      · exact Or.inr (by simp [GroupMap.entries, List.mem_cons, h])
    · simp only [GroupMap.update, if_neg h0, GroupMap.entries,
        List.mem_cons] at h
      rcases h with h | h
      · exact Or.inr (by simp [GroupMap.entries, List.mem_cons, h])
      · rcases GroupMap.mem_entries_update rest k v k' n' h with h' | h'
        · exact Or.inl h'
        · exact Or.inr (by simp [GroupMap.entries, List.mem_cons, h'])

theorem ghInsert_eq (t : RepositoryTree) (r : Repository) :
    ghInsert t r =
      match goSplit r.fullPath with
      | [] => t
      | [_] => ⟨t.groups, t.repositories ++ [r]⟩
      | org :: _ :: _ =>
        let n := (t.groups.lookup org).getD (.mk ⟨org, org, org, "github"⟩ .nil [])
        ⟨t.groups.update org (.mk n.group n.subGroups (n.repositories ++ [r])),
          t.repositories⟩ := rfl

/-- One github insertion appends the repository to its organization node
and touches no other organization. -/
theorem orgRepos_ghInsert (t : RepositoryTree) (r : Repository) (o : String) :
    orgRepos (ghInsert t r) o =
      orgRepos t o ++ (if orgOf r = some o then [r] else []) := by
  rcases hsp : goSplit r.fullPath with _ | ⟨a, _ | ⟨b, rest⟩⟩
  · rw [ghInsert_eq, hsp]
    simp [orgOf, hsp]
  · rw [ghInsert_eq, hsp]
    simp [orgOf, orgRepos, hsp]
  · rw [ghInsert_eq, hsp]
    simp only [orgOf, hsp]
    by_cases ho : a = o
    · subst ho
      simp only [if_pos rfl]
      unfold orgRepos
      rw [GroupMap.lookup_update_self]
      cases hl : t.groups.lookup a with
      | none => simp [GroupNode.repositories, hl]
      | some n0 => simp [GroupNode.repositories, hl]
    · have hno : ¬(some a = some o) := fun hc => ho (Option.some.inj hc)
      simp only [if_neg hno, List.append_nil]
      unfold orgRepos
      rw [GroupMap.lookup_update_ne _ _ _ o (fun hc => ho hc.symm)]

/-- Folding github insertions accumulates, per organization, exactly the
repositories whose first segment is that organization, in input order. -/
theorem orgRepos_foldl :
    ∀ (rs : List Repository) (t : RepositoryTree) (o : String),
      orgRepos (rs.foldl ghInsert t) o =
        orgRepos t o ++ rs.filter (fun r => decide (orgOf r = some o))
  | [], t, o => by simp
  | r :: rs, t, o => by
    rw [List.foldl_cons, orgRepos_foldl rs (ghInsert t r) o, orgRepos_ghInsert,
      List.filter_cons]
    by_cases h : orgOf r = some o
    · simp [h]
    · simp [h]

theorem orgRepos_buildTreeFromRepos (repos : List Repository) (o : String) :
    orgRepos (buildTreeFromRepos repos) o =
      repos.filter (fun r => decide (orgOf r = some o)) := by
  unfold buildTreeFromRepos
  rw [orgRepos_foldl]
  simp [orgRepos, GroupMap.lookup]

/-- Flatness of every binding of a map: no subgroups, and the group's
full path is its own top-level name. -/
def FlatMap (g : GroupMap) : Prop :=
  ∀ k n, (k, n) ∈ g.entries → n.subGroups = GroupMap.nil ∧ n.group.fullPath = k

theorem flatMap_ghInsert (t : RepositoryTree) (r : Repository)
    (h : FlatMap t.groups) : FlatMap (ghInsert t r).groups := by
  rcases hsp : goSplit r.fullPath with _ | ⟨a, _ | ⟨b, rest⟩⟩
  · rw [ghInsert_eq, hsp]; exact h
  · rw [ghInsert_eq, hsp]; exact h
  · rw [ghInsert_eq, hsp]
    intro k n hk
    rcases GroupMap.mem_entries_update _ _ _ _ _ hk with ⟨rfl, rfl⟩ | hmem
    · cases hl : t.groups.lookup k with
      | none =>
        simp only [hl, Option.getD]
        exact ⟨rfl, rfl⟩
      | some n0 =>
        have hflat := h k n0 (GroupMap.lookup_mem _ _ _ hl)
        simp only [hl, Option.getD]
        exact ⟨hflat.1, hflat.2⟩
    · exact h k n hmem

theorem flatMap_foldl :
    ∀ (rs : List Repository) (t : RepositoryTree), FlatMap t.groups →
      FlatMap ((rs.foldl ghInsert t).groups)
  | [], _, h => h
  | r :: rs, t, h =>
    flatMap_foldl rs (ghInsert t r) (flatMap_ghInsert t r h)

theorem ghInsert_repositories (t : RepositoryTree) (r : Repository)
    (h2 : 2 ≤ (goSplit r.fullPath).length) :
    (ghInsert t r).repositories = t.repositories := by
  rcases hsp : goSplit r.fullPath with _ | ⟨a, _ | ⟨b, rest⟩⟩
  · rw [ghInsert_eq, hsp]
  · rw [hsp] at h2; simp at h2
  · rw [ghInsert_eq, hsp]

theorem gh_foldl_repositories :
    ∀ (rs : List Repository) (t : RepositoryTree),
      (∀ r ∈ rs, 2 ≤ (goSplit r.fullPath).length) →
      (rs.foldl ghInsert t).repositories = t.repositories
  | [], _, _ => rfl
  | r :: rs, t, h => by
    rw [List.foldl_cons,
      gh_foldl_repositories rs (ghInsert t r)
        (fun x hx => h x (List.mem_cons_of_mem r hx)),
      ghInsert_repositories t r (h r (List.mem_cons_self r rs))]

/-- C6: when every input path has at least two segments, the GitHub tree
is flat: each repository sits directly in the top-level node named by
segment 0 of its path, that node's FullPath is segment 0, no node has any
subgroup, and no repository is at the root. -/
theorem buildTreeFromRepos_flat (repos : List Repository)
    (h2 : ∀ r ∈ repos, 2 ≤ (goSplit r.fullPath).length) :
    (∀ r ∈ repos, ∃ org n, orgOf r = some org ∧
      (buildTreeFromRepos repos).groups.lookup org = some n ∧
      r ∈ n.repositories ∧ n.group.fullPath = org) ∧
    (∀ k n, (k, n) ∈ (buildTreeFromRepos repos).groups.entries →
      n.subGroups = GroupMap.nil ∧ n.group.fullPath = k) ∧
    (buildTreeFromRepos repos).repositories = [] := by
  have hflat : FlatMap (buildTreeFromRepos repos).groups :=
    flatMap_foldl repos ⟨.nil, []⟩ (by intro k n hk; simp [GroupMap.entries] at hk)
  refine ⟨?_, hflat, gh_foldl_repositories repos ⟨.nil, []⟩ h2⟩
  intro r hr
  have hlen := h2 r hr
  rcases hsp : goSplit r.fullPath with _ | ⟨a, _ | ⟨b, rest⟩⟩
  · rw [hsp] at hlen; simp at hlen
  · rw [hsp] at hlen; simp at hlen
  · have horg : orgOf r = some a := by simp [orgOf, hsp]
    have hmem : r ∈ orgRepos (buildTreeFromRepos repos) a := by
      rw [orgRepos_buildTreeFromRepos]
      rw [List.mem_filter]
      exact ⟨hr, by simp [horg]⟩
    cases hl : (buildTreeFromRepos repos).groups.lookup a with
    | none => rw [orgRepos, hl] at hmem; simp at hmem
    | some n =>
      rw [orgRepos, hl] at hmem
      exact ⟨a, n, horg, hl, hmem,
        (hflat a n (GroupMap.lookup_mem _ _ _ hl)).2⟩

/-- A two-segment GitHub repository for the flat-tree scenario. -/
def repoOrgApp : Repository :=
  ⟨"4", "app", "org/app", "", "", "", "", "github"⟩

/-- Concrete flat tree: org/app lands directly under top-level node org,
which has no subgroups, and the root repository list is empty. -/
theorem buildTreeFromRepos_flat_witness :
    (∀ r ∈ [repoOrgApp], ∃ org n, orgOf r = some org ∧
      (buildTreeFromRepos [repoOrgApp]).groups.lookup org = some n ∧
      r ∈ n.repositories ∧ n.group.fullPath = org) ∧
    (∀ k n, (k, n) ∈ (buildTreeFromRepos [repoOrgApp]).groups.entries →
      n.subGroups = GroupMap.nil ∧ n.group.fullPath = k) ∧
    (buildTreeFromRepos [repoOrgApp]).repositories = [] :=
  buildTreeFromRepos_flat [repoOrgApp] (by decide)

/-! GitLab nested tree builder (C2, C4). -/

@[simp] theorem GroupNode.group_mk (g : Group) (s : GroupMap) (r : List Repository) :
    (GroupNode.mk g s r).group = g := rfl

@[simp] theorem GroupNode.subGroups_mk (g : Group) (s : GroupMap)
    (r : List Repository) : (GroupNode.mk g s r).subGroups = s := rfl

@[simp] theorem GroupNode.repositories_mk (g : Group) (s : GroupMap)
    (r : List Repository) : (GroupNode.mk g s r).repositories = r := rfl

theorem insertChain_single_some (provider : String) (repo : Repository)
    (pref : List String) (part : String) (m : GroupMap) (n0 : GroupNode)
    (hl : m.lookup part = some n0) :
    insertChain provider repo pref [part] m =
      m.update part (.mk n0.group n0.subGroups (n0.repositories ++ [repo])) := by
  simp [insertChain, hl]

theorem insertChain_single_none (provider : String) (repo : Repository)
    (pref : List String) (part : String) (m : GroupMap)
    (hl : m.lookup part = none) :
    insertChain provider repo pref [part] m =
      m.update part
        (.mk ⟨part, part, goJoin (pref ++ [part]), provider⟩ .nil [repo]) := by
  simp [insertChain, hl, newGroupNode]

theorem insertChain_cons_some (provider : String) (repo : Repository)
    (pref : List String) (part q : String) (rest : List String) (m : GroupMap)
    (n0 : GroupNode) (hl : m.lookup part = some n0) :
    insertChain provider repo pref (part :: q :: rest) m =
      m.update part
        (.mk n0.group
          (insertChain provider repo (pref ++ [part]) (q :: rest) n0.subGroups)
          n0.repositories) := by
  simp [insertChain, hl]

theorem insertChain_cons_none (provider : String) (repo : Repository)
    (pref : List String) (part q : String) (rest : List String) (m : GroupMap)
    (hl : m.lookup part = none) :
    insertChain provider repo pref (part :: q :: rest) m =
      m.update part
        (.mk ⟨part, part, goJoin (pref ++ [part]), provider⟩
          (insertChain provider repo (pref ++ [part]) (q :: rest) GroupMap.nil)
          []) := by
  simp [insertChain, hl, newGroupNode]

theorem reposAtM_eq_some (m : GroupMap) (d : List String) (n : GroupNode)
    (h : nodeAt m d = some n) : reposAtM m d = n.repositories := by
  unfold reposAtM
  rw [h]

theorem reposAtM_eq_none (m : GroupMap) (d : List String)
    (h : nodeAt m d = none) : reposAtM m d = [] := by
  unfold reposAtM
  rw [h]

theorem reposAtM_nil (d : List String) : reposAtM .nil d = [] :=
  reposAtM_eq_none _ _ (nodeAt_nil_map d)

theorem reposAtM_single_some (m : GroupMap) (part : String) (n : GroupNode)
    (hl : m.lookup part = some n) : reposAtM m [part] = n.repositories :=
  reposAtM_eq_some _ _ _ (by rw [nodeAt_single, hl])

theorem reposAtM_single_none (m : GroupMap) (part : String)
    (hl : m.lookup part = none) : reposAtM m [part] = [] :=
  reposAtM_eq_none _ _ (by rw [nodeAt_single, hl])

theorem reposAtM_cons_some (m : GroupMap) (part : String) (dd : List String)
    (n : GroupNode) (hl : m.lookup part = some n) (hdd : dd ≠ []) :
    reposAtM m (part :: dd) = reposAtM n.subGroups dd := by
  unfold reposAtM
  rw [nodeAt_cons_some m part dd n hl hdd]

theorem reposAtM_cons_none (m : GroupMap) (part : String) (dd : List String)
    (hl : m.lookup part = none) : reposAtM m (part :: dd) = [] :=
  reposAtM_eq_none _ _ (nodeAt_cons_none m part dd hl)

theorem reposAtM_update_self_single (m : GroupMap) (k : String) (v : GroupNode) :
    reposAtM (m.update k v) [k] = v.repositories :=
  reposAtM_single_some _ _ _ (GroupMap.lookup_update_self m k v)

theorem reposAtM_update_self_cons (m : GroupMap) (k : String) (v : GroupNode)
    (dd : List String) (hdd : dd ≠ []) :
    reposAtM (m.update k v) (k :: dd) = reposAtM v.subGroups dd :=
  reposAtM_cons_some _ _ _ _ (GroupMap.lookup_update_self m k v) hdd

theorem reposAtM_update_ne (m : GroupMap) (k : String) (v : GroupNode)
    (dq : String) (dd : List String) (h : dq ≠ k) :
    reposAtM (m.update k v) (dq :: dd) = reposAtM m (dq :: dd) := by
  cases hl : m.lookup dq with
  | none =>
    rw [reposAtM_cons_none m dq dd hl,
      reposAtM_cons_none _ dq dd (by rw [GroupMap.lookup_update_ne m k v dq h, hl])]
  | some n1 =>
    rcases dd with _ | ⟨d1, d2⟩
    · rw [reposAtM_single_some m dq n1 hl,
        reposAtM_single_some _ dq n1
          (by rw [GroupMap.lookup_update_ne m k v dq h, hl])]
    · rw [reposAtM_cons_some m dq (d1 :: d2) n1 hl (by simp),
        reposAtM_cons_some _ dq (d1 :: d2) n1
          (by rw [GroupMap.lookup_update_ne m k v dq h, hl]) (by simp)]

/-- Inserting along chain c appends the repository at the node of chain c
and leaves the repository list of every other chain unchanged. -/
theorem reposAtM_insertChain (provider : String) (repo : Repository) :
    ∀ (c : List String), c ≠ [] → ∀ (pref : List String) (m : GroupMap)
      (d : List String), d ≠ [] →
      reposAtM (insertChain provider repo pref c m) d =
        reposAtM m d ++ (if d = c then [repo] else [])
  | [], hc, _, _, _, _ => absurd rfl hc
  | [part], _, pref, m, d, hd => by
    cases hl : m.lookup part with
    | some n0 =>
      rw [insertChain_single_some provider repo pref part m n0 hl]
      rcases d with _ | ⟨dq, _ | ⟨d1, d2⟩⟩
      · exact absurd rfl hd
      · by_cases hq : dq = part
        · subst hq
          rw [reposAtM_update_self_single, reposAtM_single_some m dq n0 hl]
          simp
        · rw [reposAtM_update_ne m part _ dq [] hq]
          simp [hq]
      · by_cases hq : dq = part
        · subst hq
          rw [reposAtM_update_self_cons m dq _ (d1 :: d2) (by simp),
            reposAtM_cons_some m dq (d1 :: d2) n0 hl (by simp)]
          simp
        · rw [reposAtM_update_ne m part _ dq (d1 :: d2) hq]
          simp [hq]
    | none =>
      rw [insertChain_single_none provider repo pref part m hl]
      rcases d with _ | ⟨dq, _ | ⟨d1, d2⟩⟩
      · exact absurd rfl hd
      · by_cases hq : dq = part
        · subst hq
          rw [reposAtM_update_self_single, reposAtM_single_none m dq hl]
          simp
        · rw [reposAtM_update_ne m part _ dq [] hq]
          simp [hq]
      · by_cases hq : dq = part
        · subst hq
          rw [reposAtM_update_self_cons m dq _ (d1 :: d2) (by simp),
            reposAtM_cons_none m dq (d1 :: d2) hl]
          simp only [GroupNode.subGroups_mk]
          rw [reposAtM_nil]
          simp
        · rw [reposAtM_update_ne m part _ dq (d1 :: d2) hq]
          simp [hq]
  | part :: q :: rest, _, pref, m, d, hd => by
    cases hl : m.lookup part with
    | some n0 =>
      rw [insertChain_cons_some provider repo pref part q rest m n0 hl]
      rcases d with _ | ⟨dq, _ | ⟨d1, d2⟩⟩
      · exact absurd rfl hd
      · by_cases hq : dq = part
        · subst hq
          rw [reposAtM_update_self_single, reposAtM_single_some m dq n0 hl]
          simp
        · rw [reposAtM_update_ne m part _ dq [] hq]
          simp [hq]
      · by_cases hq : dq = part
        · subst hq
          rw [reposAtM_update_self_cons m dq _ (d1 :: d2) (by simp),
            reposAtM_cons_some m dq (d1 :: d2) n0 hl (by simp)]
          simp only [GroupNode.subGroups_mk]
          rw [reposAtM_insertChain provider repo (q :: rest) (by simp)
            (pref ++ [dq]) n0.subGroups (d1 :: d2) (by simp)]
          by_cases hqq : d1 :: d2 = q :: rest
          · simp [hqq]
          · simp [hqq, fun hc : dq :: d1 :: d2 = dq :: q :: rest =>
              hqq (List.cons.inj hc).2]
        · rw [reposAtM_update_ne m part _ dq (d1 :: d2) hq]
          simp [hq]
    | none =>
      rw [insertChain_cons_none provider repo pref part q rest m hl]
      rcases d with _ | ⟨dq, _ | ⟨d1, d2⟩⟩
      · exact absurd rfl hd
      · by_cases hq : dq = part
        · subst hq
          rw [reposAtM_update_self_single, reposAtM_single_none m dq hl]
          simp
        · rw [reposAtM_update_ne m part _ dq [] hq]
          simp [hq]
      · by_cases hq : dq = part
        · subst hq
          rw [reposAtM_update_self_cons m dq _ (d1 :: d2) (by simp),
            reposAtM_cons_none m dq (d1 :: d2) hl]
          simp only [GroupNode.subGroups_mk]
          rw [reposAtM_insertChain provider repo (q :: rest) (by simp)
            (pref ++ [dq]) GroupMap.nil (d1 :: d2) (by simp), reposAtM_nil]
          by_cases hqq : d1 :: d2 = q :: rest
          · simp [hqq]
          · simp [hqq, fun hc : dq :: d1 :: d2 = dq :: q :: rest =>
              hqq (List.cons.inj hc).2]
        · rw [reposAtM_update_ne m part _ dq (d1 :: d2) hq]
          simp [hq]

theorem chainOf_eq (r : Repository) :
    chainOf r =
      if (goSplit r.fullPath).length = 1 then none
      else some ((goSplit r.fullPath).dropLast) := rfl

theorem dropLast_goSplit_ne_nil (s : String)
    (h1 : (goSplit s).length ≠ 1) : (goSplit s).dropLast ≠ [] := by
  have hne := goSplit_ne_nil s
  intro hc
  have hd : ((goSplit s).dropLast).length = 0 := by rw [hc]; rfl
  rw [List.length_dropLast] at hd
  have hpos : 0 < (goSplit s).length := List.length_pos.mpr hne
  omega

theorem chainOf_ne_nil (r : Repository) (c : List String)
    (h : chainOf r = some c) : c ≠ [] := by
  rw [chainOf_eq] at h
  by_cases h1 : (goSplit r.fullPath).length = 1
  · rw [if_pos h1] at h
    cases h
  · rw [if_neg h1] at h
    obtain rfl : (goSplit r.fullPath).dropLast = c := Option.some.inj h
    exact dropLast_goSplit_ne_nil r.fullPath h1

theorem buildInsert_eq (t : RepositoryTree) (r : Repository) :
    buildInsert t r =
      if (goSplit r.fullPath).length = 1 then ⟨t.groups, t.repositories ++ [r]⟩
      else
        ⟨insertChain "gitlab" r [] (goSplit r.fullPath).dropLast t.groups,
          t.repositories⟩ := rfl

/-- One builder iteration appends the repository at its group chain and
leaves every other chain's repository list unchanged. -/
theorem reposAtT_buildInsert (t : RepositoryTree) (r : Repository)
    (d : List String) (hd : d ≠ []) :
    reposAtT (buildInsert t r) d =
      reposAtT t d ++ (if chainOf r = some d then [r] else []) := by
  rw [buildInsert_eq, chainOf_eq]
  by_cases h1 : (goSplit r.fullPath).length = 1
  · rw [if_pos h1, if_pos h1]
    simp [reposAtT]
  · rw [if_neg h1, if_neg h1]
    unfold reposAtT
    rw [show (RepositoryTree.mk
        (insertChain "gitlab" r [] (goSplit r.fullPath).dropLast t.groups)
        t.repositories).groups =
        insertChain "gitlab" r [] (goSplit r.fullPath).dropLast t.groups from rfl,
      reposAtM_insertChain "gitlab" r (goSplit r.fullPath).dropLast
        (dropLast_goSplit_ne_nil r.fullPath h1) [] t.groups d hd]
    by_cases hdeq : d = (goSplit r.fullPath).dropLast
    · simp [hdeq]
    · have h2 : ¬((goSplit r.fullPath).dropLast = d) := fun hc => hdeq hc.symm
      simp [hdeq, h2]

theorem reposAtT_foldl :
    ∀ (rs : List Repository) (t : RepositoryTree) (d : List String), d ≠ [] →
      reposAtT (rs.foldl buildInsert t) d =
        reposAtT t d ++ rs.filter (fun x => decide (chainOf x = some d))
  | [], t, d, _ => by simp
  | r :: rs, t, d, hd => by
    rw [List.foldl_cons, reposAtT_foldl rs (buildInsert t r) d hd,
      reposAtT_buildInsert t r d hd, List.filter_cons]
    by_cases h : chainOf r = some d
    · simp [h]
    · simp [h]

/-- The repositories at chain d of the built tree are exactly the input
repositories whose group chain is d, in input order. -/
theorem reposAtT_build (repos : List Repository) (d : List String)
    (hd : d ≠ []) :
    reposAtT (buildRepositoryTree repos) d =
      repos.filter (fun x => decide (chainOf x = some d)) := by
  unfold buildRepositoryTree
  rw [reposAtT_foldl repos ⟨.nil, []⟩ d hd]
  have : reposAtT ⟨.nil, []⟩ d = [] := reposAtM_nil d
  rw [this, List.nil_append]

theorem repositories_buildInsert (t : RepositoryTree) (r : Repository) :
    (buildInsert t r).repositories =
      t.repositories ++
        (if (goSplit r.fullPath).length = 1 then [r] else []) := by
  rw [buildInsert_eq]
  by_cases h : (goSplit r.fullPath).length = 1
  · rw [if_pos h, if_pos h]
  · rw [if_neg h, if_neg h]
    simp

theorem repositories_foldl :
    ∀ (rs : List Repository) (t : RepositoryTree),
      (rs.foldl buildInsert t).repositories =
        t.repositories ++
          rs.filter (fun x => decide ((goSplit x.fullPath).length = 1))
  | [], t => by simp
  | r :: rs, t => by
    rw [List.foldl_cons, repositories_foldl rs (buildInsert t r),
      repositories_buildInsert t r, List.filter_cons]
    by_cases h : (goSplit r.fullPath).length = 1
    · simp [h]
    · simp [h]

/-- The root repository list of the built tree is exactly the input
repositories with a single-segment path, in input order. -/
theorem repositories_build (repos : List Repository) :
    (buildRepositoryTree repos).repositories =
      repos.filter (fun x => decide ((goSplit x.fullPath).length = 1)) := by
  unfold buildRepositoryTree
  rw [repositories_foldl repos ⟨.nil, []⟩]
  rfl

theorem groups_buildInsert_one (t : RepositoryTree) (r : Repository)
    (h : (goSplit r.fullPath).length = 1) :
    (buildInsert t r).groups = t.groups := by
  rw [buildInsert_eq, if_pos h]

theorem groups_foldl_nil :
    ∀ (rs : List Repository) (t : RepositoryTree),
      (∀ r ∈ rs, (goSplit r.fullPath).length = 1) →
      (rs.foldl buildInsert t).groups = t.groups
  | [], _, _ => rfl
  | r :: rs, t, h => by
    rw [List.foldl_cons,
      groups_foldl_nil rs (buildInsert t r)
        (fun x hx => h x (List.mem_cons_of_mem r hx)),
      groups_buildInsert_one t r (h r (List.mem_cons_self r rs))]

theorem nodeOccs_eq (x : Repository) :
    ∀ n : GroupNode,
      nodeOccs x n = (if x ∈ n.repositories then 1 else 0) + mapOccs x n.subGroups
  | .mk _ _ _ => rfl

theorem mapOccs_nil_eq (x : Repository) : mapOccs x .nil = 0 := rfl

theorem mapOccs_cons_eq (x : Repository) (k : String) (n : GroupNode)
    (rest : GroupMap) :
    mapOccs x (.cons k n rest) = nodeOccs x n + mapOccs x rest := rfl

theorem mapOccs_update_some :
    ∀ (m : GroupMap) (k : String) (v : GroupNode) (x : Repository)
      (n : GroupNode), m.lookup k = some n →
      mapOccs x (m.update k v) + nodeOccs x n = mapOccs x m + nodeOccs x v
  | .nil, k, v, x, n, h => by simp [GroupMap.lookup] at h
  | .cons k0 n0 rest, k, v, x, n, h => by
    by_cases h0 : k0 = k
    · subst h0
      simp [GroupMap.lookup] at h
      subst h
      simp [GroupMap.update, mapOccs_cons_eq]
      omega
    · simp only [GroupMap.lookup, if_neg h0] at h
      simp only [GroupMap.update, if_neg h0, mapOccs_cons_eq]
      have := mapOccs_update_some rest k v x n h
      omega

theorem mapOccs_update_none :
    ∀ (m : GroupMap) (k : String) (v : GroupNode) (x : Repository),
      m.lookup k = none →
      mapOccs x (m.update k v) = mapOccs x m + nodeOccs x v
  | .nil, k, v, x, _ => by
    simp [GroupMap.update, mapOccs_cons_eq, mapOccs_nil_eq]
  | .cons k0 n0 rest, k, v, x, h => by
    by_cases h0 : k0 = k
    · subst h0
      simp [GroupMap.lookup] at h
    · simp only [GroupMap.lookup, if_neg h0] at h
      simp only [GroupMap.update, if_neg h0, mapOccs_cons_eq]
      have := mapOccs_update_none rest k v x h
      omega

/-- Inserting along chain c raises the number of nodes containing x by one
exactly when x is the inserted repository and the target node did not
already contain it; otherwise the count is unchanged. -/
theorem mapOccs_insertChain (provider : String) (repo : Repository) :
    ∀ (c : List String), c ≠ [] → ∀ (pref : List String) (m : GroupMap)
      (x : Repository),
      mapOccs x (insertChain provider repo pref c m) =
        mapOccs x m + (if x = repo ∧ x ∉ reposAtM m c then 1 else 0)
  | [], hc, _, _, _ => absurd rfl hc
  | [part], _, pref, m, x => by
    cases hl : m.lookup part with
    | some n0 =>
      rw [insertChain_single_some provider repo pref part m n0 hl,
        reposAtM_single_some m part n0 hl]
      have hu := mapOccs_update_some m part
        (GroupNode.mk n0.group n0.subGroups (n0.repositories ++ [repo])) x n0 hl
      have hv := nodeOccs_eq x
        (GroupNode.mk n0.group n0.subGroups (n0.repositories ++ [repo]))
      have hn0 := nodeOccs_eq x n0
      simp only [GroupNode.repositories_mk, GroupNode.subGroups_mk,
        List.mem_append, List.mem_singleton] at hv
      by_cases hx : x = repo
      · subst hx
        by_cases hin : x ∈ n0.repositories
        · simp [hin] at hv hn0 ⊢
          omega
        · simp [hin] at hv hn0 ⊢
          omega
      · simp [hx] at hv ⊢
        omega
    | none =>
      rw [insertChain_single_none provider repo pref part m hl,
        reposAtM_single_none m part hl]
      have hu := mapOccs_update_none m part
        (GroupNode.mk ⟨part, part, goJoin (pref ++ [part]), provider⟩ .nil [repo])
        x hl
      have hv := nodeOccs_eq x
        (GroupNode.mk ⟨part, part, goJoin (pref ++ [part]), provider⟩ .nil [repo])
      simp only [GroupNode.repositories_mk, GroupNode.subGroups_mk,
        List.mem_singleton, mapOccs_nil_eq] at hv
      simp only [List.not_mem_nil, not_false_eq_true, and_true]
      omega
  | part :: q :: rest, _, pref, m, x => by
    cases hl : m.lookup part with
    | some n0 =>
      rw [insertChain_cons_some provider repo pref part q rest m n0 hl,
        reposAtM_cons_some m part (q :: rest) n0 hl (by simp)]
      have hu := mapOccs_update_some m part
        (GroupNode.mk n0.group
          (insertChain provider repo (pref ++ [part]) (q :: rest) n0.subGroups)
          n0.repositories) x n0 hl
      have hv := nodeOccs_eq x
        (GroupNode.mk n0.group
          (insertChain provider repo (pref ++ [part]) (q :: rest) n0.subGroups)
          n0.repositories)
      have hn0 := nodeOccs_eq x n0
      simp only [GroupNode.repositories_mk, GroupNode.subGroups_mk] at hv
      rw [mapOccs_insertChain provider repo (q :: rest) (by simp)
        (pref ++ [part]) n0.subGroups x] at hv
      omega
    | none =>
      rw [insertChain_cons_none provider repo pref part q rest m hl,
        reposAtM_cons_none m part (q :: rest) hl]
      have hu := mapOccs_update_none m part
        (GroupNode.mk ⟨part, part, goJoin (pref ++ [part]), provider⟩
          (insertChain provider repo (pref ++ [part]) (q :: rest) GroupMap.nil)
          []) x hl
      have hv := nodeOccs_eq x
        (GroupNode.mk ⟨part, part, goJoin (pref ++ [part]), provider⟩
          (insertChain provider repo (pref ++ [part]) (q :: rest) GroupMap.nil)
          [])
      simp only [GroupNode.repositories_mk, GroupNode.subGroups_mk,
        List.not_mem_nil, if_neg, if_false, not_false_eq_true] at hv
      rw [mapOccs_insertChain provider repo (q :: rest) (by simp)
        (pref ++ [part]) GroupMap.nil x, reposAtM_nil, mapOccs_nil_eq] at hv
      omega

theorem treeOccs_buildInsert (t : RepositoryTree) (r : Repository)
    (x : Repository) :
    treeOccs x (buildInsert t r) =
      treeOccs x t +
        (match chainOf r with
         | none => 0
         | some c => if x = r ∧ x ∉ reposAtT t c then 1 else 0) := by
  rw [buildInsert_eq, chainOf_eq]
  by_cases h1 : (goSplit r.fullPath).length = 1
  · rw [if_pos h1, if_pos h1]
    simp [treeOccs]
  · rw [if_neg h1, if_neg h1]
    unfold treeOccs
    rw [show (RepositoryTree.mk
        (insertChain "gitlab" r [] (goSplit r.fullPath).dropLast t.groups)
        t.repositories).groups =
        insertChain "gitlab" r [] (goSplit r.fullPath).dropLast t.groups from rfl,
      mapOccs_insertChain "gitlab" r (goSplit r.fullPath).dropLast
        (dropLast_goSplit_ne_nil r.fullPath h1) [] t.groups x]
    rfl

theorem treeOccs_step_some (x : Repository) (c : List String)
    (hx : chainOf x = some c) (t : RepositoryTree) (r : Repository)
    (h : treeOccs x t = (if x ∈ reposAtT t c then 1 else 0)) :
    treeOccs x (buildInsert t r) =
      (if x ∈ reposAtT (buildInsert t r) c then 1 else 0) := by
  have hc : c ≠ [] := chainOf_ne_nil x c hx
  rw [treeOccs_buildInsert t r x, reposAtT_buildInsert t r c hc, h]
  cases hcr : chainOf r with
  | none => simp [hcr]
  | some cr =>
    by_cases hxr : x = r
    · subst hxr
      rw [hx] at hcr
      obtain rfl : c = cr := Option.some.inj hcr
      by_cases hmem : x ∈ reposAtT t c
      · have hnot : ¬(x = x ∧ x ∉ reposAtT t c) := fun h' => h'.2 hmem
        simp [hmem, hnot, hx]
      · simp [hmem, hx]
    · have hnot : ¬(x = r ∧ x ∉ reposAtT t cr) := fun h' => hxr h'.1
      have hiff : (x ∈ reposAtT t c ++
          (if (some cr : Option (List String)) = some c then [r] else [])) ↔
            x ∈ reposAtT t c := by
        by_cases hcc : cr = c
        · simp [hcc, hxr]
        · simp [hcc]
      rw [if_congr hiff rfl rfl]
      simp [hnot]

theorem treeOccs_foldl_some (x : Repository) (c : List String)
    (hx : chainOf x = some c) :
    ∀ (rs : List Repository) (t : RepositoryTree),
      treeOccs x t = (if x ∈ reposAtT t c then 1 else 0) →
      treeOccs x (rs.foldl buildInsert t) =
        (if x ∈ reposAtT (rs.foldl buildInsert t) c then 1 else 0)
  | [], _, h => h
  | r :: rs, t, h => by
    rw [List.foldl_cons]
    exact treeOccs_foldl_some x c hx rs (buildInsert t r)
      (treeOccs_step_some x c hx t r h)

theorem treeOccs_step_none (x : Repository) (hx : chainOf x = none)
    (t : RepositoryTree) (r : Repository) (h : treeOccs x t = 0) :
    treeOccs x (buildInsert t r) = 0 := by
  rw [treeOccs_buildInsert t r x, h]
  cases hcr : chainOf r with
  | none => rfl
  | some cr =>
    have hnot : ¬(x = r ∧ x ∉ reposAtT t cr) := by
      rintro ⟨rfl, _⟩
      rw [hx] at hcr
      cases hcr
    simp [hnot]

theorem treeOccs_foldl_none (x : Repository) (hx : chainOf x = none) :
    ∀ (rs : List Repository) (t : RepositoryTree), treeOccs x t = 0 →
      treeOccs x (rs.foldl buildInsert t) = 0
  | [], _, h => h
  | r :: rs, t, h => by
    rw [List.foldl_cons]
    exact treeOccs_foldl_none x hx rs (buildInsert t r)
      (treeOccs_step_none x hx t r h)

/-- Every repository whose chain is c is counted exactly once in the tree
built from a list containing it. -/
theorem treeOccs_build_one (repos : List Repository) (r : Repository)
    (hr : r ∈ repos) (c : List String) (hc : chainOf r = some c) :
    treeOccs r (buildRepositoryTree repos) = 1 := by
  have hcn : c ≠ [] := chainOf_ne_nil r c hc
  have hbase : treeOccs r (⟨.nil, []⟩ : RepositoryTree) =
      (if r ∈ reposAtT ⟨.nil, []⟩ c then 1 else 0) := by
    have h1 : treeOccs r (⟨.nil, []⟩ : RepositoryTree) = 0 := rfl
    have h2 : reposAtT (⟨.nil, []⟩ : RepositoryTree) c = [] := reposAtM_nil c
    rw [h1, h2]
    simp
  have := treeOccs_foldl_some r c hc repos ⟨.nil, []⟩ hbase
  unfold buildRepositoryTree
  rw [this]
  have hmem : r ∈ reposAtT (repos.foldl buildInsert ⟨.nil, []⟩) c := by
    have hb : reposAtT (repos.foldl buildInsert ⟨.nil, []⟩) c =
        repos.filter (fun x => decide (chainOf x = some c)) :=
      reposAtT_build repos c hcn
    rw [hb, List.mem_filter]
    exact ⟨hr, by simp [hc]⟩
  rw [if_pos hmem]

theorem treeOccs_build_zero (repos : List Repository) (r : Repository)
    (hc : chainOf r = none) :
    treeOccs r (buildRepositoryTree repos) = 0 :=
  treeOccs_foldl_none r hc repos ⟨.nil, []⟩ rfl

/-- C2: BuildRepositoryTree partitions its input. A repository whose
FullPath contains a slash appears in exactly one GroupNode of the tree,
namely the node reached by walking its leading path segments from the
root; a repository without a slash appears in the root repository list
and in no GroupNode; and when no FullPath contains a slash, the group
mapping is empty and the root list holds exactly the input. -/
theorem buildRepositoryTree_partitions (repos : List Repository) :
    (∀ r ∈ repos, '/' ∈ r.fullPath.data →
      treeOccs r (buildRepositoryTree repos) = 1 ∧
      ∃ n, nodeAt (buildRepositoryTree repos).groups
            ((goSplit r.fullPath).dropLast) = some n ∧
          r ∈ n.repositories) ∧
    (∀ r ∈ repos, '/' ∉ r.fullPath.data →
      r ∈ (buildRepositoryTree repos).repositories ∧
      treeOccs r (buildRepositoryTree repos) = 0) ∧
    ((∀ r ∈ repos, '/' ∉ r.fullPath.data) →
      (buildRepositoryTree repos).groups = GroupMap.nil ∧
      ∀ x, x ∈ (buildRepositoryTree repos).repositories ↔ x ∈ repos) := by
  refine ⟨?_, ?_, ?_⟩
  · intro r hr hslash
    have h1 : (goSplit r.fullPath).length ≠ 1 := fun h =>
      (length_goSplit_eq_one_iff r.fullPath).mp h hslash
    have hc : chainOf r = some ((goSplit r.fullPath).dropLast) := by
      rw [chainOf_eq, if_neg h1]
    refine ⟨treeOccs_build_one repos r hr _ hc, ?_⟩
    have hcn : (goSplit r.fullPath).dropLast ≠ [] :=
      dropLast_goSplit_ne_nil r.fullPath h1
    have hmem : r ∈ reposAtT (buildRepositoryTree repos)
        ((goSplit r.fullPath).dropLast) := by
      rw [reposAtT_build repos _ hcn, List.mem_filter]
      exact ⟨hr, by simp [hc]⟩
    unfold reposAtT reposAtM at hmem
    cases hn : nodeAt (buildRepositoryTree repos).groups
        ((goSplit r.fullPath).dropLast) with
    | none => rw [hn] at hmem; simp at hmem
    | some n => rw [hn] at hmem; exact ⟨n, rfl, hmem⟩
  · intro r hr hslash
    have h1 : (goSplit r.fullPath).length = 1 :=
      (length_goSplit_eq_one_iff r.fullPath).mpr hslash
    constructor
    · rw [repositories_build, List.mem_filter]
      exact ⟨hr, by simp [h1]⟩
    · exact treeOccs_build_zero repos r (by rw [chainOf_eq, if_pos h1])
  · intro hall
    have hlen : ∀ r ∈ repos, (goSplit r.fullPath).length = 1 := fun r hr =>
      (length_goSplit_eq_one_iff r.fullPath).mpr (hall r hr)
    constructor
    · unfold buildRepositoryTree
      exact groups_foldl_nil repos ⟨.nil, []⟩ hlen
    · intro x
      rw [repositories_build,
        List.filter_eq_self.mpr (fun a ha => by simp [hlen a ha])]

/-- A grouped repository for the partition scenario. -/
def rGrpApp : Repository := ⟨"5", "app", "grp/app", "", "", "", "", "gitlab"⟩

/-- An ungrouped repository for the partition scenario. -/
def rSolo : Repository := ⟨"6", "solo", "solo", "", "", "", "", "gitlab"⟩

/-- Concrete partition: grp/app is in exactly one group node, solo is in
the root list, and an all-root input yields an empty group mapping. -/
theorem buildRepositoryTree_partitions_witness :
    treeOccs rGrpApp (buildRepositoryTree [rGrpApp, rSolo]) = 1 ∧
    rSolo ∈ (buildRepositoryTree [rGrpApp, rSolo]).repositories ∧
    (buildRepositoryTree [rSolo]).groups = GroupMap.nil :=
  ⟨((buildRepositoryTree_partitions [rGrpApp, rSolo]).1 rGrpApp (by decide)
      (by decide)).1,
    ((buildRepositoryTree_partitions [rGrpApp, rSolo]).2.1 rSolo (by decide)
      (by decide)).1,
    ((buildRepositoryTree_partitions [rSolo]).2.2 (by decide)).1⟩

theorem insertChain_nil_chain (provider : String) (repo : Repository)
    (pref : List String) (m : GroupMap) :
    insertChain provider repo pref [] m = m := rfl

/-- After inserting along chain c, every nonempty prefix of c has a node. -/
theorem nodeAt_insertChain_self (provider : String) (repo : Repository) :
    ∀ (c : List String), c ≠ [] → ∀ (pref : List String) (m : GroupMap)
      (j : Nat), 1 ≤ j → j ≤ c.length →
      (nodeAt (insertChain provider repo pref c m) (c.take j)).isSome = true
  | [], hc, _, _, _, _, _ => absurd rfl hc
  | [part], _, pref, m, j, hj1, hj2 => by
    have hj : j = 1 := by
      simp only [List.length_cons, List.length_nil] at hj2
      omega
    subst hj
    have htk : ([part] : List String).take 1 = [part] := rfl
    rw [htk]
    cases hl : m.lookup part with
    | some n0 =>
      rw [insertChain_single_some provider repo pref part m n0 hl,
        nodeAt_single, GroupMap.lookup_update_self]
      rfl
    | none =>
      rw [insertChain_single_none provider repo pref part m hl,
        nodeAt_single, GroupMap.lookup_update_self]
      rfl
  | part :: q :: rest, _, pref, m, j, hj1, hj2 => by
    rcases Nat.exists_eq_add_of_le hj1 with ⟨j', rfl⟩
    rcases Nat.eq_zero_or_pos j' with rfl | hj'
    · have htk : ((part :: q :: rest) : List String).take 1 = [part] := rfl
      rw [htk]
      cases hl : m.lookup part with
      | some n0 =>
        rw [insertChain_cons_some provider repo pref part q rest m n0 hl,
          nodeAt_single, GroupMap.lookup_update_self]
        rfl
      | none =>
        rw [insertChain_cons_none provider repo pref part q rest m hl,
          nodeAt_single, GroupMap.lookup_update_self]
        rfl
    · have htk : ((part :: q :: rest) : List String).take (1 + j') =
          part :: ((q :: rest).take j') := by
        have : 1 + j' = j' + 1 := by omega
        rw [this, List.take_succ_cons]
      rw [htk]
      have htail : (q :: rest).take j' ≠ [] := by
        intro h0
        have : ((q :: rest).take j').length = 0 := by rw [h0]; rfl
        rw [List.length_take] at this
        simp only [List.length_cons] at this
        omega
      have hjle : j' ≤ (q :: rest).length := by
        simp only [List.length_cons] at hj2 ⊢
        omega
      cases hl : m.lookup part with
      | some n0 =>
        rw [insertChain_cons_some provider repo pref part q rest m n0 hl,
          nodeAt_cons_some _ part _ _ (GroupMap.lookup_update_self m part _)
            htail]
        simp only [GroupNode.subGroups_mk]
        exact nodeAt_insertChain_self provider repo (q :: rest) (by simp)
          (pref ++ [part]) n0.subGroups j' hj' hjle
      | none =>
        rw [insertChain_cons_none provider repo pref part q rest m hl,
          nodeAt_cons_some _ part _ _ (GroupMap.lookup_update_self m part _)
            htail]
        simp only [GroupNode.subGroups_mk]
        exact nodeAt_insertChain_self provider repo (q :: rest) (by simp)
          (pref ++ [part]) GroupMap.nil j' hj' hjle

/-- Insertion never removes an existing node. -/
theorem nodeAt_insertChain_mono (provider : String) (repo : Repository) :
    ∀ (c pref : List String) (m : GroupMap) (d : List String),
      (nodeAt m d).isSome = true →
      (nodeAt (insertChain provider repo pref c m) d).isSome = true
  | [], _, m, d, h => by rw [insertChain_nil_chain]; exact h
  | [part], pref, m, d, h => by
    rcases d with _ | ⟨dq, dd⟩
    · rw [show nodeAt m [] = none from rfl] at h
      cases h
    · cases hl : m.lookup part with
      | some n0 =>
        rw [insertChain_single_some provider repo pref part m n0 hl]
        by_cases hq : dq = part
        · subst hq
          rcases dd with _ | ⟨d1, d2⟩
          · rw [nodeAt_single, GroupMap.lookup_update_self]
            rfl
          · rw [nodeAt_cons_some _ dq _ _ (GroupMap.lookup_update_self m dq _)
              (by simp)]
            simp only [GroupNode.subGroups_mk]
            rw [nodeAt_cons_some m dq _ n0 hl (by simp)] at h
            exact h
        · rcases dd with _ | ⟨d1, d2⟩
          · rw [nodeAt_single, GroupMap.lookup_update_ne m part _ dq hq,
              ← nodeAt_single]
            exact h
          · cases hl2 : m.lookup dq with
            | none =>
              rw [nodeAt_cons_none m dq _ hl2] at h
              cases h
            | some n1 =>
              rw [nodeAt_cons_some _ dq _ n1
                (by rw [GroupMap.lookup_update_ne m part _ dq hq, hl2])
                (by simp),
                ← nodeAt_cons_some m dq _ n1 hl2 (by simp)]
              exact h
      | none =>
        rw [insertChain_single_none provider repo pref part m hl]
        by_cases hq : dq = part
        · subst hq
          rcases dd with _ | ⟨d1, d2⟩
          · rw [nodeAt_single, GroupMap.lookup_update_self]
            rfl
          · rw [nodeAt_cons_none m dq _ hl] at h
            cases h
        · rcases dd with _ | ⟨d1, d2⟩
          · rw [nodeAt_single, GroupMap.lookup_update_ne m part _ dq hq,
              ← nodeAt_single]
            exact h
          · cases hl2 : m.lookup dq with
            | none =>
              rw [nodeAt_cons_none m dq _ hl2] at h
              cases h
            | some n1 =>
              rw [nodeAt_cons_some _ dq _ n1
                (by rw [GroupMap.lookup_update_ne m part _ dq hq, hl2])
                (by simp),
                ← nodeAt_cons_some m dq _ n1 hl2 (by simp)]
              exact h
  | part :: q :: rest, pref, m, d, h => by
    rcases d with _ | ⟨dq, dd⟩
    · rw [show nodeAt m [] = none from rfl] at h
      cases h
    · cases hl : m.lookup part with
      | some n0 =>
        rw [insertChain_cons_some provider repo pref part q rest m n0 hl]
        by_cases hq : dq = part
        · subst hq
          rcases dd with _ | ⟨d1, d2⟩
          · rw [nodeAt_single, GroupMap.lookup_update_self]
            rfl
          · rw [nodeAt_cons_some _ dq _ _ (GroupMap.lookup_update_self m dq _)
              (by simp)]
            simp only [GroupNode.subGroups_mk]
            rw [nodeAt_cons_some m dq _ n0 hl (by simp)] at h
            exact nodeAt_insertChain_mono provider repo (q :: rest)
              (pref ++ [dq]) n0.subGroups (d1 :: d2) h
        · rcases dd with _ | ⟨d1, d2⟩
          · rw [nodeAt_single, GroupMap.lookup_update_ne m part _ dq hq,
              ← nodeAt_single]
            exact h
          · cases hl2 : m.lookup dq with
            | none =>
              rw [nodeAt_cons_none m dq _ hl2] at h
              cases h
            | some n1 =>
              rw [nodeAt_cons_some _ dq _ n1
                (by rw [GroupMap.lookup_update_ne m part _ dq hq, hl2])
                (by simp),
                ← nodeAt_cons_some m dq _ n1 hl2 (by simp)]
              exact h
      | none =>
        rw [insertChain_cons_none provider repo pref part q rest m hl]
        by_cases hq : dq = part
        · subst hq
          rcases dd with _ | ⟨d1, d2⟩
          · rw [nodeAt_single, GroupMap.lookup_update_self]
            rfl
          · rw [nodeAt_cons_none m dq _ hl] at h
            cases h
        · rcases dd with _ | ⟨d1, d2⟩
          · rw [nodeAt_single, GroupMap.lookup_update_ne m part _ dq hq,
              ← nodeAt_single]
            exact h
          · cases hl2 : m.lookup dq with
            | none =>
              rw [nodeAt_cons_none m dq _ hl2] at h
              cases h
            | some n1 =>
              rw [nodeAt_cons_some _ dq _ n1
                (by rw [GroupMap.lookup_update_ne m part _ dq hq, hl2])
                (by simp),
                ← nodeAt_cons_some m dq _ n1 hl2 (by simp)]
              exact h

theorem nodeAt_buildInsert_mono (t : RepositoryTree) (r : Repository)
    (d : List String) (h : (nodeAt t.groups d).isSome = true) :
    (nodeAt (buildInsert t r).groups d).isSome = true := by
  rw [buildInsert_eq]
  by_cases h1 : (goSplit r.fullPath).length = 1
  · rw [if_pos h1]
    exact h
  · rw [if_neg h1]
    exact nodeAt_insertChain_mono "gitlab" r _ [] t.groups d h

theorem nodeAt_foldl_mono :
    ∀ (rs : List Repository) (t : RepositoryTree) (d : List String),
      (nodeAt t.groups d).isSome = true →
      (nodeAt ((rs.foldl buildInsert t)).groups d).isSome = true
  | [], _, _, h => h
  | r :: rs, t, d, h => by
    rw [List.foldl_cons]
    exact nodeAt_foldl_mono rs (buildInsert t r) d
      (nodeAt_buildInsert_mono t r d h)

/-- Every nonempty prefix of the chain of a listed repository has a node
in the built tree. -/
theorem nodeAt_build_prefix :
    ∀ (rs : List Repository) (t : RepositoryTree) (r : Repository), r ∈ rs →
      ∀ (c : List String), chainOf r = some c → ∀ (j : Nat), 1 ≤ j →
        j ≤ c.length →
        (nodeAt ((rs.foldl buildInsert t)).groups (c.take j)).isSome = true
  | [], _, r, hr, _, _, _, _, _ => absurd hr (List.not_mem_nil r)
  | r' :: rs, t, r, hr, c, hc, j, hj1, hj2 => by
    rcases List.mem_cons.mp hr with rfl | hmem
    · rw [List.foldl_cons]
      apply nodeAt_foldl_mono rs (buildInsert t r) (c.take j)
      rw [chainOf_eq] at hc
      by_cases h1 : (goSplit r.fullPath).length = 1
      · rw [if_pos h1] at hc
        cases hc
      · rw [if_neg h1] at hc
        obtain rfl : (goSplit r.fullPath).dropLast = c := Option.some.inj hc
        rw [buildInsert_eq, if_neg h1]
        exact nodeAt_insertChain_self "gitlab" r _
          (dropLast_goSplit_ne_nil _ h1) [] t.groups j hj1 hj2
    · rw [List.foldl_cons]
      exact nodeAt_build_prefix rs (buildInsert t r') r hmem c hc j hj1 hj2

/-- Well-formed metadata: the node reached by a chain records, as its
group's FullPath, the join of the absolute segments leading to it. -/
def GoodM (pref : List String) (m : GroupMap) : Prop :=
  ∀ d n, d ≠ [] → nodeAt m d = some n → n.group.fullPath = goJoin (pref ++ d)

theorem goodM_nil (pref : List String) : GoodM pref .nil := by
  intro d n _ h
  rw [nodeAt_nil_map] at h
  cases h

theorem goodM_sub (pref : List String) (m : GroupMap) (part : String)
    (n : GroupNode) (hg : GoodM pref m) (hl : m.lookup part = some n) :
    GoodM (pref ++ [part]) n.subGroups := by
  intro d n' hd h
  have hstep : nodeAt m (part :: d) = some n' := by
    rw [nodeAt_cons_some m part d n hl hd]
    exact h
  have := hg (part :: d) n' (by simp) hstep
  rw [this, List.append_assoc]
  rfl

theorem goodM_insertChain (provider : String) (repo : Repository) :
    ∀ (c : List String), c ≠ [] → ∀ (pref : List String) (m : GroupMap),
      GoodM pref m → GoodM pref (insertChain provider repo pref c m)
  | [], hc, _, _, _ => absurd rfl hc
  | [part], _, pref, m, hg => by
    intro d n' hd h
    cases hl : m.lookup part with
    | some n0 =>
      rw [insertChain_single_some provider repo pref part m n0 hl] at h
      rcases d with _ | ⟨dq, _ | ⟨d1, d2⟩⟩
      · exact absurd rfl hd
      · by_cases hq : dq = part
        · subst hq
          rw [nodeAt_single, GroupMap.lookup_update_self] at h
          obtain rfl := Option.some.inj h
          simp only [GroupNode.group_mk]
          exact hg [dq] n0 (by simp) (by rw [nodeAt_single, hl])
        · rw [nodeAt_single, GroupMap.lookup_update_ne m part _ dq hq,
            ← nodeAt_single] at h
          exact hg [dq] n' (by simp) h
      · by_cases hq : dq = part
        · subst hq
          rw [nodeAt_cons_some _ dq _ _ (GroupMap.lookup_update_self m dq _)
            (by simp)] at h
          simp only [GroupNode.subGroups_mk] at h
          exact hg (dq :: d1 :: d2) n' (by simp)
            (by rw [nodeAt_cons_some m dq _ n0 hl (by simp)]; exact h)
        · cases hl2 : m.lookup dq with
          | none =>
            rw [nodeAt_cons_none _ dq _
              (by rw [GroupMap.lookup_update_ne m part _ dq hq, hl2])] at h
            cases h
          | some n1 =>
            rw [nodeAt_cons_some _ dq _ n1
              (by rw [GroupMap.lookup_update_ne m part _ dq hq, hl2])
              (by simp)] at h
            exact hg (dq :: d1 :: d2) n' (by simp)
              (by rw [nodeAt_cons_some m dq _ n1 hl2 (by simp)]; exact h)
    | none =>
      rw [insertChain_single_none provider repo pref part m hl] at h
      rcases d with _ | ⟨dq, _ | ⟨d1, d2⟩⟩
      · exact absurd rfl hd
      · by_cases hq : dq = part
        · subst hq
          rw [nodeAt_single, GroupMap.lookup_update_self] at h
          obtain rfl := Option.some.inj h
          rfl
        · rw [nodeAt_single, GroupMap.lookup_update_ne m part _ dq hq,
            ← nodeAt_single] at h
          exact hg [dq] n' (by simp) h
      · by_cases hq : dq = part
        · subst hq
          rw [nodeAt_cons_some _ dq _ _ (GroupMap.lookup_update_self m dq _)
            (by simp)] at h
          simp only [GroupNode.subGroups_mk] at h
          rw [nodeAt_nil_map] at h
          cases h
        · cases hl2 : m.lookup dq with
          | none =>
            rw [nodeAt_cons_none _ dq _
              (by rw [GroupMap.lookup_update_ne m part _ dq hq, hl2])] at h
            cases h
          | some n1 =>
            rw [nodeAt_cons_some _ dq _ n1
              (by rw [GroupMap.lookup_update_ne m part _ dq hq, hl2])
              (by simp)] at h
            exact hg (dq :: d1 :: d2) n' (by simp)
              (by rw [nodeAt_cons_some m dq _ n1 hl2 (by simp)]; exact h)
  | part :: q :: rest, _, pref, m, hg => by
    intro d n' hd h
    cases hl : m.lookup part with
    | some n0 =>
      rw [insertChain_cons_some provider repo pref part q rest m n0 hl] at h
      rcases d with _ | ⟨dq, _ | ⟨d1, d2⟩⟩
      · exact absurd rfl hd
      · by_cases hq : dq = part
        · subst hq
          rw [nodeAt_single, GroupMap.lookup_update_self] at h
          obtain rfl := Option.some.inj h
          simp only [GroupNode.group_mk]
          exact hg [dq] n0 (by simp) (by rw [nodeAt_single, hl])
        · rw [nodeAt_single, GroupMap.lookup_update_ne m part _ dq hq,
            ← nodeAt_single] at h
          exact hg [dq] n' (by simp) h
      · by_cases hq : dq = part
        · subst hq
          rw [nodeAt_cons_some _ dq _ _ (GroupMap.lookup_update_self m dq _)
            (by simp)] at h
          simp only [GroupNode.subGroups_mk] at h
          have hgsub : GoodM (pref ++ [dq]) n0.subGroups :=
            goodM_sub pref m dq n0 hg hl
          have := goodM_insertChain provider repo (q :: rest) (by simp)
            (pref ++ [dq]) n0.subGroups hgsub (d1 :: d2) n' (by simp) h
          rw [this, List.append_assoc]
          rfl
        · cases hl2 : m.lookup dq with
          | none =>
            rw [nodeAt_cons_none _ dq _
              (by rw [GroupMap.lookup_update_ne m part _ dq hq, hl2])] at h
            cases h
          | some n1 =>
            rw [nodeAt_cons_some _ dq _ n1
              (by rw [GroupMap.lookup_update_ne m part _ dq hq, hl2])
              (by simp)] at h
            exact hg (dq :: d1 :: d2) n' (by simp)
              (by rw [nodeAt_cons_some m dq _ n1 hl2 (by simp)]; exact h)
    | none =>
      rw [insertChain_cons_none provider repo pref part q rest m hl] at h
      rcases d with _ | ⟨dq, _ | ⟨d1, d2⟩⟩
      · exact absurd rfl hd
      · by_cases hq : dq = part
        · subst hq
          rw [nodeAt_single, GroupMap.lookup_update_self] at h
          obtain rfl := Option.some.inj h
          rfl
        · rw [nodeAt_single, GroupMap.lookup_update_ne m part _ dq hq,
            ← nodeAt_single] at h
          exact hg [dq] n' (by simp) h
      · by_cases hq : dq = part
        · subst hq
          rw [nodeAt_cons_some _ dq _ _ (GroupMap.lookup_update_self m dq _)
            (by simp)] at h
          simp only [GroupNode.subGroups_mk] at h
          have := goodM_insertChain provider repo (q :: rest) (by simp)
            (pref ++ [dq]) GroupMap.nil (goodM_nil _) (d1 :: d2) n' (by simp) h
          rw [this, List.append_assoc]
          rfl
        · cases hl2 : m.lookup dq with
          | none =>
            rw [nodeAt_cons_none _ dq _
              (by rw [GroupMap.lookup_update_ne m part _ dq hq, hl2])] at h
            cases h
          | some n1 =>
            rw [nodeAt_cons_some _ dq _ n1
              (by rw [GroupMap.lookup_update_ne m part _ dq hq, hl2])
              (by simp)] at h
            exact hg (dq :: d1 :: d2) n' (by simp)
              (by rw [nodeAt_cons_some m dq _ n1 hl2 (by simp)]; exact h)

theorem goodM_buildInsert (t : RepositoryTree) (r : Repository)
    (hg : GoodM [] t.groups) : GoodM [] (buildInsert t r).groups := by
  rw [buildInsert_eq]
  by_cases h1 : (goSplit r.fullPath).length = 1
  · rw [if_pos h1]
    exact hg
  · rw [if_neg h1]
    exact goodM_insertChain "gitlab" r _ (dropLast_goSplit_ne_nil _ h1) []
      t.groups hg

theorem goodM_foldl :
    ∀ (rs : List Repository) (t : RepositoryTree), GoodM [] t.groups →
      GoodM [] ((rs.foldl buildInsert t)).groups
  | [], _, hg => hg
  | r :: rs, t, hg => by
    rw [List.foldl_cons]
    exact goodM_foldl rs (buildInsert t r) (goodM_buildInsert t r hg)

theorem goodM_build (repos : List Repository) :
    GoodM [] (buildRepositoryTree repos).groups :=
  goodM_foldl repos ⟨.nil, []⟩ (goodM_nil [])

/-- C4: every group path used to construct a node during tree-building —
the slash-join of a nonempty proper prefix of some input repository's
segments — is found by findGroupInTree, and the found node's Group
FullPath equals that path. -/
theorem findGroupInTree_finds_constructed (repos : List Repository)
    (r : Repository) (hr : r ∈ repos) (k : Nat) (hk1 : 1 ≤ k)
    (hk2 : k < (goSplit r.fullPath).length) :
    ∃ n, findGroupInTree (buildRepositoryTree repos)
        (goJoin ((goSplit r.fullPath).take k)) = some n ∧
      n.group.fullPath = goJoin ((goSplit r.fullPath).take k) := by
  have hne := goSplit_ne_nil r.fullPath
  have hpos : 0 < (goSplit r.fullPath).length := List.length_pos.mpr hne
  have h1 : (goSplit r.fullPath).length ≠ 1 := by omega
  have hc : chainOf r = some ((goSplit r.fullPath).dropLast) := by
    rw [chainOf_eq, if_neg h1]
  have hdllen : ((goSplit r.fullPath).dropLast).length =
      (goSplit r.fullPath).length - 1 := List.length_dropLast _
  have hkle : k ≤ ((goSplit r.fullPath).dropLast).length := by omega
  have htake : ((goSplit r.fullPath).dropLast).take k =
      (goSplit r.fullPath).take k := by
    rw [List.dropLast_eq_take, List.take_take]
    have hmin : k ⊓ ((goSplit r.fullPath).length - 1) = k := by omega
    rw [hmin]
  have hsome := nodeAt_build_prefix repos ⟨.nil, []⟩ r hr
    ((goSplit r.fullPath).dropLast) hc k hk1 hkle
  rw [htake] at hsome
  obtain ⟨n, hn⟩ := Option.isSome_iff_exists.mp hsome
  have htkne : (goSplit r.fullPath).take k ≠ [] := by
    intro h0
    have : ((goSplit r.fullPath).take k).length = 0 := by rw [h0]; rfl
    rw [List.length_take] at this
    omega
  have hgood := goodM_build repos ((goSplit r.fullPath).take k) n htkne hn
  rw [List.nil_append] at hgood
  refine ⟨n, ?_, hgood⟩
  unfold findGroupInTree buildRepositoryTree
  have hnoslash : ∀ s ∈ (goSplit r.fullPath).take k, '/' ∉ s.data :=
    fun s hs => mem_goSplit_no_slash r.fullPath s (List.take_subset k _ hs)
  rw [goSplit_goJoin ((goSplit r.fullPath).take k) htkne hnoslash,
    walkParts_eq_nodeAt ((goSplit r.fullPath).take k) htkne, hn]

/-- A doubly nested repository for the lookup scenario. -/
def rGSub : Repository := ⟨"7", "app", "g/sub/app", "", "", "", "", "gitlab"⟩

/-- Concrete lookup of a constructed group path: the length-2 prefix
g/sub of g/sub/app is found and carries FullPath g/sub. -/
theorem findGroupInTree_finds_constructed_witness :
    ∃ n, findGroupInTree (buildRepositoryTree [rGSub])
        (goJoin ((goSplit rGSub.fullPath).take 2)) = some n ∧
      n.group.fullPath = goJoin ((goSplit rGSub.fullPath).take 2) :=
  findGroupInTree_finds_constructed [rGSub] rGSub (by decide) 2 (by decide)
    (by decide)

end Gitstuff
